import Mathlib

/-!
Verification of the `regex_filter_plugin` rule engine (`src/plugin.py`).

The Python code is shallowly embedded: strings are `String`/`List Char`,
the loosely-typed TOML config dictionaries become structures with `Option`
fields (an absent dictionary key is `none`, and every `dict.get(k, d)`
call site becomes `Option.getD`), and the external `re` module is
abstracted as a substitution capability `ReSub`; a concrete instance
`litReSub` models `re.sub` on the fragment used by the configured rules
(non-empty literal patterns, with the `IGNORECASE` flag), returning
`none` exactly where `re.compile` raises `re.error`.
-/

namespace RegexFilter

/-! ## Character classes

`isHSpace` is the character class `[ \t]` appearing in the cleanup
regexes; `isPySpace` is Python's `\s` for `str` patterns (which also
coincides with the character set stripped by `str.strip()`). -/

def isHSpace (c : Char) : Bool := c == ' ' || c == '\t'

def pySpaceChars : List Char :=
  [' ', '\t', '\n', '\r', '\x0b', '\x0c',
   '\x1c', '\x1d', '\x1e', '\x1f', '\x85', '\xa0',
   ' ', ' ', ' ', ' ', ' ', ' ', ' ',
   ' ', ' ', ' ', ' ', ' ',
   ' ', ' ', ' ', ' ', '　']

def isPySpace (c : Char) : Bool := pySpaceChars.contains c

/-! ## The whitespace-normalization pass
(`RegexMessageFilter._clean_extra_whitespace`, plugin.py lines 174-189)

Each of the four `re.sub` calls is implemented directly on `List Char`,
using the leftmost, non-overlapping, greedy match semantics of `re.sub`
for its particular pattern:

* `re.sub(r'\n\s*\n\s*', '\n\n', content)`: a match starts at a `'\n'`
  whose maximal following `\s`-run contains another `'\n'`; greedy
  backtracking makes the match consume the whole run, which is replaced
  by `"\n\n"`, and scanning resumes after the run.
* `re.sub(r'[ \t]+', ' ', content)`: each maximal `[ \t]` run becomes a
  single space.
* `re.sub(r'\n[ \t]+', '\n', content)`: the `[ \t]` run following a
  `'\n'` is deleted.
* `re.sub(r'[ \t]+\n', '\n', content)`: a maximal `[ \t]` run directly
  followed by `'\n'` is deleted (scanning resumes after that `'\n'`);
  a run not followed by `'\n'` admits no match anywhere inside it. -/

def pstripL (l : List Char) : List Char :=
  ((l.dropWhile isPySpace).reverse.dropWhile isPySpace).reverse

def collapseBlankL : List Char → List Char
  | [] => []
  | c :: cs =>
    if c = '\n' ∧ '\n' ∈ cs.takeWhile isPySpace then
      '\n' :: '\n' :: collapseBlankL (cs.dropWhile isPySpace)
    else
      c :: collapseBlankL cs
termination_by l => l.length
decreasing_by
  · exact Nat.lt_succ_of_le (List.dropWhile_sublist isPySpace).length_le
  · exact Nat.lt_succ_self _

def collapseSpacesL : List Char → List Char
  | [] => []
  | c :: cs =>
    if isHSpace c then
      ' ' :: collapseSpacesL (cs.dropWhile isHSpace)
    else
      c :: collapseSpacesL cs
termination_by l => l.length
decreasing_by
  · exact Nat.lt_succ_of_le (List.dropWhile_sublist isHSpace).length_le
  · exact Nat.lt_succ_self _

def stripAfterNlL : List Char → List Char
  | [] => []
  | c :: cs =>
    if c = '\n' then
      '\n' :: stripAfterNlL (cs.dropWhile isHSpace)
    else
      c :: stripAfterNlL cs
termination_by l => l.length
decreasing_by
  · exact Nat.lt_succ_of_le (List.dropWhile_sublist isHSpace).length_le
  · exact Nat.lt_succ_self _

def stripBeforeNlL : List Char → List Char
  | [] => []
  | c :: cs =>
    if isHSpace c then
      if (cs.dropWhile isHSpace).head? = some '\n' then
        '\n' :: stripBeforeNlL (cs.dropWhile isHSpace).tail
      else
        (c :: cs.takeWhile isHSpace) ++ stripBeforeNlL (cs.dropWhile isHSpace)
    else
      c :: stripBeforeNlL cs
termination_by l => l.length
decreasing_by
  · exact Nat.lt_succ_of_le (le_trans
      (by rw [List.length_tail]; exact Nat.sub_le _ _)
      (List.dropWhile_sublist isHSpace).length_le)
  · exact Nat.lt_succ_of_le (List.dropWhile_sublist isHSpace).length_le
  · exact Nat.lt_succ_self _

def normL (l : List Char) : List Char :=
  pstripL (stripBeforeNlL (stripAfterNlL (collapseSpacesL (collapseBlankL (pstripL l)))))

def cleanExtraWhitespace (content : String) : String :=
  if content = "" then content
  else ⟨normL content.data⟩

/-! ## Configuration data model

The TOML config is a loosely typed nested dictionary in Python; every
key may be absent, so each field is an `Option`, and the embedded code
mirrors each `dict.get(key, default)` with `Option.getD`. -/

structure ReplaceRule where
  pattern : Option String
  replacement : Option String
  enabled : Option Bool
  ignore_case : Option Bool
  multiline : Option Bool
  description : Option String
deriving DecidableEq, Repr

structure DeleteRule where
  pattern : Option String
  enabled : Option Bool
  ignore_case : Option Bool
  multiline : Option Bool
  description : Option String
deriving DecidableEq, Repr

structure AppendRule where
  content : Option String
  position : Option String
  enabled : Option Bool
  description : Option String
deriving DecidableEq, Repr

structure RulesSection where
  replace_rules : Option (List ReplaceRule)
  delete_rules : Option (List DeleteRule)
  append_rules : Option (List AppendRule)
deriving DecidableEq, Repr

structure PluginSection where
  enabled : Option Bool
  config_version : Option String
deriving DecidableEq, Repr

structure AdvancedSection where
  max_content_length : Option Int
  log_changes : Option Bool
deriving DecidableEq, Repr

structure Config where
  plugin : Option PluginSection
  rules : Option RulesSection
  advanced : Option AdvancedSection
deriving DecidableEq, Repr

/-- The empty dictionary `{}`. -/
def emptyConfig : Config := ⟨none, none, none⟩

/-- `config.get("plugin", {}).get("enabled", True)` (plugin.py line 202). -/
def pluginEnabled (cfg : Config) : Bool :=
  match cfg.plugin with
  | none => true
  | some p => p.enabled.getD true

/-- `config.get("rules", {}).get("replace_rules", [])` (plugin.py line 230). -/
def getReplaceRules (cfg : Config) : List ReplaceRule :=
  match cfg.rules with
  | none => []
  | some rs => rs.replace_rules.getD []

/-- `config.get("rules", {}).get("delete_rules", [])` (plugin.py line 250). -/
def getDeleteRules (cfg : Config) : List DeleteRule :=
  match cfg.rules with
  | none => []
  | some rs => rs.delete_rules.getD []

/-- `config.get("rules", {}).get("append_rules", [])` (plugin.py line 269). -/
def getAppendRules (cfg : Config) : List AppendRule :=
  match cfg.rules with
  | none => []
  | some rs => rs.append_rules.getD []

/-- `config.get("advanced", {}).get("log_changes", False)` (plugin.py line 292). -/
def getLogChanges (cfg : Config) : Bool :=
  match cfg.advanced with
  | none => false
  | some a => a.log_changes.getD false

/-! ## `ConfigManager.load_config` (plugin.py lines 40-49)

The file system is abstracted as a `FileState`: the file may be absent,
present but unreadable/unparsable (`toml.load` or `open` raising), or
present with parsed content.  `load_config` returns `{}` both when the
file does not exist and when reading/parsing raises (the exception is
caught and logged; nothing propagates to the caller). -/

inductive FileState where
  | missing : FileState
  | corrupt : FileState
  | ok : Config → FileState
deriving DecidableEq

def load_config : FileState → Config
  | .missing => emptyConfig
  | .corrupt => emptyConfig
  | .ok c => c

/-- The defaults documented in `RegexFilterPlugin.config_schema`
(plugin.py lines 757-808): two sample replace rules, one sample delete
rule, no append rules, `enabled=true`, `max_content_length=10000`,
`log_changes=false`.  The host framework uses this schema to generate
the initial config file; it is embedded here to compare against what
`load_config` actually returns. -/
def schemaDefaultConfig : Config :=
  { plugin := some { enabled := some true, config_version := some "1.0.0" }
    rules := some
      { replace_rules := some
          [ { pattern := some "不可以", replacement := some "可以",
              enabled := some true, ignore_case := some false,
              multiline := some false,
              description := some "将'不可以'替换为'可以'" },
            { pattern := some "(糟糕|坏|不好)", replacement := some "好",
              enabled := some true, ignore_case := some false,
              multiline := some false,
              description := some "将负面词汇替换为'好'" } ]
        delete_rules := some
          [ { pattern := some "问题", enabled := some true,
              ignore_case := some false, multiline := some false,
              description := some "删除所有'问题'字样" } ]
        append_rules := some [] }
    advanced := some { max_content_length := some 10000, log_changes := some false } }

/-! ## The `re` module boundary

`ReSub pattern replacement flags input` models
`re.sub(pattern, replacement, input, flags=flags)`: `none` is the
`re.error` path (pattern failed to compile), `some out` the substituted
result.  The transform code is written against this capability.

`litReSub` is a concrete executable model of `re.sub` restricted to the
fragment exercised here: non-empty patterns containing no regex
metacharacter are matched literally (all non-overlapping occurrences,
leftmost first, honouring `re.IGNORECASE`); anything else is treated as
unsupported and takes the compile-failure path.  In particular `"("`
genuinely raises `re.error` in Python. -/

def ReSub : Type := String → String → Nat → String → Option String

def reIGNORECASE : Nat := 2
def reMULTILINE : Nat := 8

def regexMetaChars : List Char :=
  ['.', '^', '$', '*', '+', '?', '(', ')', '[', ']', '{', '}', '|', '\\']

def isLitPattern (p : String) : Bool :=
  p ≠ "" && p.data.all (fun c => !regexMetaChars.contains c)

def replaceAllF (pat rep : List Char) : Nat → List Char → List Char
  | 0, l => l
  | _ + 1, [] => []
  | n + 1, c :: cs =>
    if pat ≠ [] ∧ pat.isPrefixOf (c :: cs) then
      rep ++ replaceAllF pat rep n ((c :: cs).drop pat.length)
    else
      c :: replaceAllF pat rep n cs

def ciCharEq (a b : Char) : Bool := a.toLower == b.toLower

def ciIsPrefixOf : List Char → List Char → Bool
  | [], _ => true
  | _ :: _, [] => false
  | p :: ps, c :: cs => ciCharEq p c && ciIsPrefixOf ps cs

def ciReplaceAllF (pat rep : List Char) : Nat → List Char → List Char
  | 0, l => l
  | _ + 1, [] => []
  | n + 1, c :: cs =>
    if pat ≠ [] ∧ ciIsPrefixOf pat (c :: cs) then
      rep ++ ciReplaceAllF pat rep n ((c :: cs).drop pat.length)
    else
      c :: ciReplaceAllF pat rep n cs

def litReSub : ReSub := fun pattern replacement flags input =>
  if isLitPattern pattern then
    if flags &&& reIGNORECASE ≠ 0 then
      some ⟨ciReplaceAllF pattern.data replacement.data input.data.length input.data⟩
    else
      some ⟨replaceAllF pattern.data replacement.data input.data.length input.data⟩
  else
    none

/-! ## The transform pipeline (`RegexMessageFilter.execute`, plugin.py lines 191-318) -/

/-- Flag composition `flags |= re.IGNORECASE` / `flags |= re.MULTILINE`
(plugin.py lines 237-242 and 256-261). -/
def ruleFlags (ic ml : Bool) : Nat :=
  (if ic then reIGNORECASE else 0) ||| (if ml then reMULTILINE else 0)

/-- The replace stage (plugin.py lines 229-247): disabled rules are
skipped; a rule whose `re.sub` raises `re.error` leaves the buffer
unmodified and the loop continues. -/
def applyReplaceRules (resub : ReSub) (rules : List ReplaceRule) (content : String) : String :=
  rules.foldl (fun buf r =>
    if !(r.enabled.getD true) then buf
    else
      match resub (r.pattern.getD "") (r.replacement.getD "")
          (ruleFlags (r.ignore_case.getD false) (r.multiline.getD false)) buf with
      | some out => out
      | none => buf) content

/-- The delete stage (plugin.py lines 249-266): identical to the replace
stage with the replacement forced to `""`. -/
def applyDeleteRules (resub : ReSub) (rules : List DeleteRule) (content : String) : String :=
  rules.foldl (fun buf r =>
    if !(r.enabled.getD true) then buf
    else
      match resub (r.pattern.getD "") ""
          (ruleFlags (r.ignore_case.getD false) (r.multiline.getD false)) buf with
      | some out => out
      | none => buf) content

/-- The append stage (plugin.py lines 268-280): `position == "start"`
prepends the content, anything else appends it. -/
def applyAppendRules (rules : List AppendRule) (content : String) : String :=
  rules.foldl (fun buf r =>
    if !(r.enabled.getD true) then buf
    else if r.position.getD "end" = "start" then (r.content.getD "") ++ buf
    else buf ++ (r.content.getD "")) content

/-- Replace and delete stages composed, i.e. the buffer as it stands
after plugin.py line 266. -/
def engineReplaceDelete (resub : ReSub) (cfg : Config) (content : String) : String :=
  applyDeleteRules resub (getDeleteRules cfg) (applyReplaceRules resub (getReplaceRules cfg) content)

/-- All three rule stages followed by the whitespace cleanup: the value
`cleaned_content` at plugin.py line 283. -/
def processedResult (resub : ReSub) (cfg : Config) (content : String) : String :=
  cleanExtraWhitespace (applyAppendRules (getAppendRules cfg) (engineReplaceDelete resub cfg content))

/-- Final content value held by `llm_response["content"]` after the
handler runs: early-outs when the plugin is disabled or the content is
falsy, else the cleaned pipeline result (written back only when it
differs, which leaves the same value either way). -/
def executeContent (resub : ReSub) (cfg : Config) (content : String) : String :=
  if !pluginEnabled cfg then content
  else if content = "" then content
  else processedResult resub cfg content

/-- The handler's effect on the whole `llm_response` dictionary,
modelled as a map from field names to values (plugin.py lines 219-222
and 282-314): the transformed content is written back under
`"content"` only when it differs from the original; every other field
is untouched. -/
def updateLlmResponse (resub : ReSub) (cfg : Config) (resp : String → Option String) :
    String → Option String :=
  if !pluginEnabled cfg then resp
  else
    match resp "content" with
    | none => resp
    | some orig =>
      if orig = "" then resp
      else
        let cleaned := processedResult resub cfg orig
        if cleaned ≠ orig then
          fun k => if k = "content" then some cleaned else resp k
        else resp

/-! ## `RegexTestCommand.execute` (plugin.py lines 696-744)

The test command re-implements the replace and delete loops over the
persisted rule set, but calls `re.sub(pattern, replacement, text)` with
no `flags` argument at all (lines 717 and 727); `re.error` makes it
`continue` with the buffer unchanged.  It never saves anything. -/

def testApplyReplace (resub : ReSub) (rules : List ReplaceRule) (text : String) : String :=
  rules.foldl (fun buf r =>
    if !(r.enabled.getD true) then buf
    else
      match resub (r.pattern.getD "") (r.replacement.getD "") 0 buf with
      | some out => out
      | none => buf) text

def testApplyDelete (resub : ReSub) (rules : List DeleteRule) (text : String) : String :=
  rules.foldl (fun buf r =>
    if !(r.enabled.getD true) then buf
    else
      match resub (r.pattern.getD "") "" 0 buf with
      | some out => out
      | none => buf) text

def testTransform (resub : ReSub) (cfg : Config) (text : String) : String :=
  testApplyDelete resub (getDeleteRules cfg) (testApplyReplace resub (getReplaceRules cfg) text)

/-! ## `RegexRemoveCommand._delete_rule` (plugin.py lines 602-626)

`index` is the already 0-based converted index (`int(arg) - 1`); the
function returns `False` (here `none`) when the rules section or the
keyed list is absent or the index is out of `0 <= index < len`, and
otherwise pops exactly that entry and saves. -/

inductive RuleKind where
  | replace : RuleKind
  | delete : RuleKind
  | append : RuleKind
deriving DecidableEq

def deleteRuleAt (cfg : Config) (kind : RuleKind) (index : Int) : Option Config :=
  match cfg.rules with
  | none => none
  | some rs =>
    match kind with
    | .replace =>
      match rs.replace_rules with
      | none => none
      | some l =>
        if index < 0 ∨ (l.length : Int) ≤ index then none
        else some { cfg with rules := some { rs with replace_rules := some (l.eraseIdx index.toNat) } }
    | .delete =>
      match rs.delete_rules with
      | none => none
      | some l =>
        if index < 0 ∨ (l.length : Int) ≤ index then none
        else some { cfg with rules := some { rs with delete_rules := some (l.eraseIdx index.toNat) } }
    | .append =>
      match rs.append_rules with
      | none => none
      | some l =>
        if index < 0 ∨ (l.length : Int) ≤ index then none
        else some { cfg with rules := some { rs with append_rules := some (l.eraseIdx index.toNat) } }

/-! ## `ConfigManager.save_config` / `_generate_toml_content`
(plugin.py lines 51-162) and the reload

`_generate_toml_content` emits each section only when its key is
present, materialises per-rule defaults (`rule.get("enabled", True)`,
`rule.get("ignore_case", False)`, `rule.get("multiline", False)`,
`rule.get("position", "end")`), emits `description` only when present,
and runs every string through `_escape_toml_string`.  The external
`toml` library is modelled as faithful structured storage: reading
back the generated document yields the same nested dictionary with the
TOML basic-string escapes decoded (`parseConfigBack`).  A list written
with zero entries produces no `[[...]]` table at all, so it reads back
as an absent key.

`_escape_toml_string` is a chain of `str.replace` calls (backslash
first); since the later replacements never introduce one of the
earlier targets, the chain acts independently on each character, which
is how `escChar` renders it. -/

def escChar (c : Char) : List Char :=
  if c = '\\' then ['\\', '\\']
  else if c = '"' then ['\\', '"']
  else if c = '\n' then ['\\', 'n']
  else if c = '\r' then ['\\', 'r']
  else if c = '\t' then ['\\', 't']
  else [c]

def escapeTomlString (s : String) : String := ⟨s.data.flatMap escChar⟩

/-- TOML basic-string escape decoding on the escapes that
`_escape_toml_string` emits (`\\`, `\"`, `\n`, `\r`, `\t`). -/
def unescDecode (d : Char) : Char :=
  if d = 'n' then '\n'
  else if d = 'r' then '\r'
  else if d = 't' then '\t'
  else d

def unescapeTomlChars : List Char → List Char
  | [] => []
  | [c] => [c]
  | c :: d :: ds =>
    if c = '\\' then unescDecode d :: unescapeTomlChars ds
    else c :: unescapeTomlChars (d :: ds)

def unescapeTomlString (s : String) : String := ⟨unescapeTomlChars s.data⟩

def writeReplaceRule (r : ReplaceRule) : ReplaceRule :=
  { pattern := some (escapeTomlString (r.pattern.getD ""))
    replacement := some (escapeTomlString (r.replacement.getD ""))
    enabled := some (r.enabled.getD true)
    ignore_case := some (r.ignore_case.getD false)
    multiline := some (r.multiline.getD false)
    description := r.description.map escapeTomlString }

def writeDeleteRule (r : DeleteRule) : DeleteRule :=
  { pattern := some (escapeTomlString (r.pattern.getD ""))
    enabled := some (r.enabled.getD true)
    ignore_case := some (r.ignore_case.getD false)
    multiline := some (r.multiline.getD false)
    description := r.description.map escapeTomlString }

def writeAppendRule (r : AppendRule) : AppendRule :=
  { content := some (escapeTomlString (r.content.getD ""))
    position := some (escapeTomlString (r.position.getD "end"))
    enabled := some (r.enabled.getD true)
    description := r.description.map escapeTomlString }

/-- Table-array emission: an empty (or absent) list yields no
`[[rules.*]]` header in the file, hence an absent key on reload. -/
def writeRuleList {α β : Type} (write : α → β) : Option (List α) → Option (List β)
  | some (x :: xs) => some ((x :: xs).map write)
  | _ => none

def writeConfig (c : Config) : Config :=
  { plugin := c.plugin.map (fun p =>
      { enabled := p.enabled
        config_version := p.config_version.map escapeTomlString })
    rules := c.rules.map (fun rs =>
      { replace_rules := writeRuleList writeReplaceRule rs.replace_rules
        delete_rules := writeRuleList writeDeleteRule rs.delete_rules
        append_rules := writeRuleList writeAppendRule rs.append_rules })
    advanced := c.advanced.map (fun a =>
      { max_content_length := a.max_content_length
        log_changes := a.log_changes }) }

def parseReplaceRule (r : ReplaceRule) : ReplaceRule :=
  { pattern := r.pattern.map unescapeTomlString
    replacement := r.replacement.map unescapeTomlString
    enabled := r.enabled
    ignore_case := r.ignore_case
    multiline := r.multiline
    description := r.description.map unescapeTomlString }

def parseDeleteRule (r : DeleteRule) : DeleteRule :=
  { pattern := r.pattern.map unescapeTomlString
    enabled := r.enabled
    ignore_case := r.ignore_case
    multiline := r.multiline
    description := r.description.map unescapeTomlString }

def parseAppendRule (r : AppendRule) : AppendRule :=
  { content := r.content.map unescapeTomlString
    position := r.position.map unescapeTomlString
    enabled := r.enabled
    description := r.description.map unescapeTomlString }

def parseConfigBack (c : Config) : Config :=
  { plugin := c.plugin.map (fun p =>
      { enabled := p.enabled
        config_version := p.config_version.map unescapeTomlString })
    rules := c.rules.map (fun rs =>
      { replace_rules := rs.replace_rules.map (List.map parseReplaceRule)
        delete_rules := rs.delete_rules.map (List.map parseDeleteRule)
        append_rules := rs.append_rules.map (List.map parseAppendRule) })
    advanced := c.advanced.map (fun a =>
      { max_content_length := a.max_content_length
        log_changes := a.log_changes }) }

/-! Field-level views: the value of every field of the §3 data model as
the program reads it (`dict.get` defaults applied to the per-rule
fields and rule lists; the plugin and advanced sections round-trip
key-exactly). -/

structure ReplaceRuleView where
  pattern : String
  replacement : String
  enabled : Bool
  ignore_case : Bool
  multiline : Bool
  description : Option String
deriving DecidableEq

structure DeleteRuleView where
  pattern : String
  enabled : Bool
  ignore_case : Bool
  multiline : Bool
  description : Option String
deriving DecidableEq

structure AppendRuleView where
  content : String
  position : String
  enabled : Bool
  description : Option String
deriving DecidableEq

def replaceRuleView (r : ReplaceRule) : ReplaceRuleView :=
  ⟨r.pattern.getD "", r.replacement.getD "", r.enabled.getD true,
   r.ignore_case.getD false, r.multiline.getD false, r.description⟩

def deleteRuleView (r : DeleteRule) : DeleteRuleView :=
  ⟨r.pattern.getD "", r.enabled.getD true,
   r.ignore_case.getD false, r.multiline.getD false, r.description⟩

def appendRuleView (r : AppendRule) : AppendRuleView :=
  ⟨r.content.getD "", r.position.getD "end", r.enabled.getD true, r.description⟩

structure ConfigView where
  plugin : Option PluginSection
  replaceRules : List ReplaceRuleView
  deleteRules : List DeleteRuleView
  appendRules : List AppendRuleView
  advanced : Option AdvancedSection
deriving DecidableEq

def configView (c : Config) : ConfigView :=
  ⟨c.plugin, (getReplaceRules c).map replaceRuleView,
   (getDeleteRules c).map deleteRuleView,
   (getAppendRules c).map appendRuleView, c.advanced⟩

/-! ## Derived notions used in the statements -/

/-- Concatenation of the contents accumulated by a run of
`position == "start"` append rules: each rule prepends its content to
everything built so far. -/
def startConcat (rules : List AppendRule) : String :=
  rules.foldl (fun acc r => (r.content.getD "") ++ acc) ""

/-- Per-rule flag erasure: what the test command effectively does by
never passing `flags` to `re.sub`. -/
def clearFlagsReplace (r : ReplaceRule) : ReplaceRule :=
  { r with ignore_case := some false, multiline := some false }

def clearFlagsDelete (r : DeleteRule) : DeleteRule :=
  { r with ignore_case := some false, multiline := some false }

def clearAllRuleFlags (cfg : Config) : Config :=
  { cfg with rules := cfg.rules.map (fun rs =>
      { rs with
        replace_rules := rs.replace_rules.map (List.map clearFlagsReplace)
        delete_rules := rs.delete_rules.map (List.map clearFlagsDelete) }) }

/-- Store a new replace-rule list, everything else untouched
(the shape of the config after `rules_list.pop(index)` in
`_delete_rule`). -/
def setReplaceList (cfg : Config) (l : List ReplaceRule) : Config :=
  { cfg with rules := cfg.rules.map (fun rs => { rs with replace_rules := some l }) }

def setDeleteList (cfg : Config) (l : List DeleteRule) : Config :=
  { cfg with rules := cfg.rules.map (fun rs => { rs with delete_rules := some l }) }

def setAppendList (cfg : Config) (l : List AppendRule) : Config :=
  { cfg with rules := cfg.rules.map (fun rs => { rs with append_rules := some l }) }

/-! ## Concrete rule sets for the scenario claims -/

/-- Scenario A: one enabled replace rule `不可以 → 可以` and one enabled
delete rule `问题`, nothing else. -/
def scenarioAConfig : Config :=
  { plugin := none
    rules := some
      { replace_rules := some
          [ { pattern := some "不可以", replacement := some "可以",
              enabled := some true, ignore_case := some false,
              multiline := some false, description := none } ]
        delete_rules := some
          [ { pattern := some "问题", enabled := some true,
              ignore_case := some false, multiline := some false,
              description := none } ]
        append_rules := none }
    advanced := none }

/-- Two enabled `position = "start"` append rules, contents `"a"` then
`"b"` in list order. -/
def twoStartRules : List AppendRule :=
  [ { content := some "a", position := some "start", enabled := some true, description := none },
    { content := some "b", position := some "start", enabled := some true, description := none } ]

/-- One enabled replace rule `a → b` with `ignore_case = true`. -/
def ignoreCaseConfig : Config :=
  { plugin := none
    rules := some
      { replace_rules := some
          [ { pattern := some "a", replacement := some "b",
              enabled := some true, ignore_case := some true,
              multiline := some false, description := none } ]
        delete_rules := none
        append_rules := none }
    advanced := none }

/-- A config whose global plugin switch is off but which still carries
an enabled rule that would match. -/
def disabledConfig : Config :=
  { plugin := some { enabled := some false, config_version := none }
    rules := some
      { replace_rules := some
          [ { pattern := some "a", replacement := some "b",
              enabled := some true, ignore_case := some false,
              multiline := some false, description := none } ]
        delete_rules := none
        append_rules := none }
    advanced := none }

/-- Three replace rules to exercise deletion by index. -/
def threeRuleConfig : Config :=
  { plugin := none
    rules := some
      { replace_rules := some
          [ { pattern := some "p1", replacement := some "q1",
              enabled := some true, ignore_case := none, multiline := none, description := none },
            { pattern := some "p2", replacement := some "q2",
              enabled := some true, ignore_case := none, multiline := none, description := none },
            { pattern := some "p3", replacement := some "q3",
              enabled := some true, ignore_case := none, multiline := none, description := none } ]
        delete_rules := none
        append_rules := none }
    advanced := none }

/-- An enabled replace rule whose pattern `"("` fails to compile. -/
def badReplaceRule : ReplaceRule :=
  { pattern := some "(", replacement := some "x",
    enabled := some true, ignore_case := none, multiline := none, description := none }

/-- An enabled, valid replace rule `a → b`. -/
def goodReplaceRule : ReplaceRule :=
  { pattern := some "a", replacement := some "b",
    enabled := some true, ignore_case := none, multiline := none, description := none }

/-- An enabled delete rule whose pattern `"("` fails to compile. -/
def badDeleteRule : DeleteRule :=
  { pattern := some "(", enabled := some true,
    ignore_case := none, multiline := none, description := none }

/-- A sample `llm_response` dictionary with a content field and an
unrelated field. -/
def sampleResponse : String → Option String :=
  fun k => if k = "content" then some "hello" else if k = "other" then some "v" else none

/-! ## Normal-form predicates for the whitespace cleanup

Each predicate characterises strings on which one cleanup stage is the
identity; together they are established and preserved along the
pipeline, giving idempotence. -/

/-- The head (if any) is not Python whitespace. -/
def HeadNotPy (l : List Char) : Prop :=
  ∀ c, l.head? = some c → isPySpace c = false

/-- The head (if any) is not a space or tab. -/
def HeadNotH (l : List Char) : Prop :=
  ∀ c, l.head? = some c → isHSpace c = false

/-- No whitespace at either end (so `strip` is the identity). -/
def EdgeOk (l : List Char) : Prop := HeadNotPy l ∧ HeadNotPy l.reverse

/-- No tabs and no two adjacent `[ \t]` characters (so collapsing
horizontal whitespace runs is the identity). -/
def CsOk (l : List Char) : Prop :=
  (∀ c ∈ l, c ≠ '\t') ∧ l.Chain' (fun a b => ¬(isHSpace a = true ∧ isHSpace b = true))

/-- No `[ \t]` directly after a newline. -/
def SaOk (l : List Char) : Prop :=
  l.Chain' (fun a b => ¬(a = '\n' ∧ isHSpace b = true))

/-- No `[ \t]` directly before a newline. -/
def SbOk (l : List Char) : Prop :=
  l.Chain' (fun a b => ¬(isHSpace a = true ∧ b = '\n'))

/-- Every newline whose following whitespace run contains another
newline is immediately followed by exactly that one newline and then a
non-whitespace character (so collapsing blank runs is the identity). -/
def NlOk : List Char → Prop
  | [] => True
  | c :: cs =>
    (c = '\n' → '\n' ∈ cs.takeWhile isPySpace →
      cs.head? = some '\n' ∧ HeadNotPy cs.tail) ∧ NlOk cs

/-! # Theorems -/

/-! ## Helper lemmas -/

theorem startConcat_foldl (rules : List AppendRule) (acc : String) :
    rules.foldl (fun acc r => (r.content.getD "") ++ acc) acc = startConcat rules ++ acc := by
  induction rules generalizing acc with
  | nil => simp [startConcat, String.empty_append]
  | cons r rs ih =>
    simp only [startConcat, List.foldl_cons] at *
    rw [ih, ih ((r.content.getD "") ++ "")]
    simp [String.append_assoc, String.append_empty]

theorem applyAppend_all_start (rules : List AppendRule) (buf : String)
    (h : ∀ r ∈ rules, r.enabled.getD true = true ∧ r.position.getD "end" = "start") :
    applyAppendRules rules buf = startConcat rules ++ buf := by
  induction rules generalizing buf with
  | nil => simp [applyAppendRules, startConcat, String.empty_append]
  | cons r rs ih =>
    have hr := h r (List.mem_cons_self r rs)
    have hrest : ∀ x ∈ rs, x.enabled.getD true = true ∧ x.position.getD "end" = "start" :=
      fun x hx => h x (List.mem_cons_of_mem r hx)
    have step : applyAppendRules (r :: rs) buf =
        applyAppendRules rs ((r.content.getD "") ++ buf) := by
      simp [applyAppendRules, hr.1, hr.2]
    rw [step, ih _ hrest]
    have : startConcat (r :: rs) = startConcat rs ++ (r.content.getD "") := by
      simp only [startConcat, List.foldl_cons]
      rw [startConcat_foldl]
      simp [startConcat, String.append_empty, String.empty_append]
    rw [this, String.append_assoc]

/-! ## C1: Scenario A -/

/-- C1 (counterexample): with the enabled replace rule `不可以 → 可以` and
the enabled delete rule `问题`, the buffer after the replace and delete
stages on `"这个问题不可以解决"` is not `"这个解决"` (it is
`"这个可以解决"`: the replace stage substitutes first, so the
characters `可以` survive the delete stage). -/
theorem c1_scenarioA_claimed_output_wrong :
    engineReplaceDelete litReSub scenarioAConfig "这个问题不可以解决" ≠ "这个解决" := by
  decide

/-- C1 (amended): with those two rules, the output after the replace and
delete stages is exactly `"这个可以解决"` (and it is unchanged by the
later whitespace normalization, containing no whitespace). -/
theorem c1_scenarioA_actual_output :
    engineReplaceDelete litReSub scenarioAConfig "这个问题不可以解决" = "这个可以解决" := by
  decide

/-! ## C2: composition of start-position append rules -/

/-- C2 (counterexample): with two enabled start rules, contents `"a"`
then `"b"` in list order, on buffer `"x"` the append stage produces
`"bax"` — the first-processed rule's content `"a"`, not the
last-processed `"b"`, ends up closest to the original content. -/
theorem c2_last_start_rule_not_innermost :
    applyAppendRules twoStartRules "x" = "bax" ∧ ("bax" : String) ≠ "abx" := by
  constructor
  · decide
  · decide

/-- C2 (amended): for every buffer and every list of enabled
`position = "start"` append rules, the append stage prepends the
contents in list order, so the result is the contents concatenated in
reverse list order followed by the original buffer — the
first-processed start rule's content ends up closest to the original
content and the last-processed one outermost. -/
theorem c2_start_rules_accumulate_reversed :
    ∀ (rules : List AppendRule) (buf : String),
      (∀ r ∈ rules, r.enabled.getD true = true ∧ r.position.getD "end" = "start") →
      applyAppendRules rules buf = startConcat rules ++ buf :=
  fun rules buf h => applyAppend_all_start rules buf h

/-- Witness for C2 (amended) at the two concrete start rules. -/
theorem c2_start_rules_accumulate_reversed_witness :
    (∀ r ∈ twoStartRules, r.enabled.getD true = true ∧ r.position.getD "end" = "start") ∧
    applyAppendRules twoStartRules "x" = startConcat twoStartRules ++ "x" :=
  ⟨by decide, c2_start_rules_accumulate_reversed twoStartRules "x" (by decide)⟩

/-! ## C3: load_config defaults -/

/-- C3 (counterexample): on a missing config file `load_config` returns
the empty dictionary, not the schema-documented defaults (which contain
two sample replace rules). -/
theorem c3_load_missing_not_schema_defaults :
    load_config FileState.missing ≠ schemaDefaultConfig ∧
    getReplaceRules (load_config FileState.missing) = [] ∧
    (getReplaceRules schemaDefaultConfig).length = 2 := by
  refine ⟨by decide, by decide, by decide⟩

/-- C3 (amended): on a missing file, and likewise when reading or
parsing fails, `load_config` returns the empty config `{}` (the
exception is caught, so nothing is thrown into the transformation
path); downstream `get`-with-default call sites then behave as
`enabled = true`, empty rule lists and `log_changes = false`.  The
documented sample-rule defaults live only in the plugin's config
schema, which the host framework uses to generate the initial config
file. -/
theorem c3_load_failure_returns_empty :
    load_config FileState.missing = emptyConfig ∧
    load_config FileState.corrupt = emptyConfig ∧
    pluginEnabled emptyConfig = true ∧
    getReplaceRules emptyConfig = [] ∧
    getDeleteRules emptyConfig = [] ∧
    getAppendRules emptyConfig = [] ∧
    getLogChanges emptyConfig = false := by
  refine ⟨rfl, rfl, rfl, rfl, rfl, rfl, rfl⟩

/-! ## C6: disabled short-circuit -/

/-- C6: whenever the global plugin switch is off, the handler returns
the content unchanged, whatever the rules say. -/
theorem c6_disabled_is_noop :
    ∀ (resub : ReSub) (cfg : Config) (x : String),
      pluginEnabled cfg = false → executeContent resub cfg x = x := by
  intro resub cfg x h
  simp [executeContent, h]

/-- Witness for C6 at a concrete disabled config carrying an enabled
matching rule. -/
theorem c6_disabled_is_noop_witness :
    pluginEnabled disabledConfig = false ∧
    executeContent litReSub disabledConfig "abc" = "abc" :=
  ⟨by decide, c6_disabled_is_noop litReSub disabledConfig "abc" (by decide)⟩

/-! ## C7: remove-by-index bounds -/

theorem removeReplaceSpec (cfg : Config) (i : Int) :
    ((i ≤ 0 ∨ ((getReplaceRules cfg).length : Int) < i) →
      deleteRuleAt cfg RuleKind.replace (i - 1) = none) ∧
    (1 ≤ i → i ≤ ((getReplaceRules cfg).length : Int) →
      deleteRuleAt cfg RuleKind.replace (i - 1) =
        some (setReplaceList cfg ((getReplaceRules cfg).eraseIdx (i - 1).toNat))) := by
  rcases hrs : cfg.rules with _ | rs
  · refine ⟨fun _ => by simp [deleteRuleAt, hrs], fun h1 h2 => ?_⟩
    simp [getReplaceRules, hrs] at h2; omega
  · rcases hl : rs.replace_rules with _ | l
    · refine ⟨fun _ => by simp [deleteRuleAt, hrs, hl], fun h1 h2 => ?_⟩
      simp [getReplaceRules, hrs, hl] at h2; omega
    · have hget : getReplaceRules cfg = l := by simp [getReplaceRules, hrs, hl]
      constructor
      · intro h
        rw [hget] at h
        simp only [deleteRuleAt, hrs, hl]
        rw [if_pos (by omega)]
      · intro h1 h2
        rw [hget] at h2
        simp only [deleteRuleAt, hrs, hl]
        rw [if_neg (by omega)]
        simp [setReplaceList, hrs, hget]

theorem removeDeleteSpec (cfg : Config) (i : Int) :
    ((i ≤ 0 ∨ ((getDeleteRules cfg).length : Int) < i) →
      deleteRuleAt cfg RuleKind.delete (i - 1) = none) ∧
    (1 ≤ i → i ≤ ((getDeleteRules cfg).length : Int) →
      deleteRuleAt cfg RuleKind.delete (i - 1) =
        some (setDeleteList cfg ((getDeleteRules cfg).eraseIdx (i - 1).toNat))) := by
  rcases hrs : cfg.rules with _ | rs
  · refine ⟨fun _ => by simp [deleteRuleAt, hrs], fun h1 h2 => ?_⟩
    simp [getDeleteRules, hrs] at h2; omega
  · rcases hl : rs.delete_rules with _ | l
    · refine ⟨fun _ => by simp [deleteRuleAt, hrs, hl], fun h1 h2 => ?_⟩
      simp [getDeleteRules, hrs, hl] at h2; omega
    · have hget : getDeleteRules cfg = l := by simp [getDeleteRules, hrs, hl]
      constructor
      · intro h
        rw [hget] at h
        simp only [deleteRuleAt, hrs, hl]
        rw [if_pos (by omega)]
      · intro h1 h2
        rw [hget] at h2
        simp only [deleteRuleAt, hrs, hl]
        rw [if_neg (by omega)]
        simp [setDeleteList, hrs, hget]

theorem removeAppendSpec (cfg : Config) (i : Int) :
    ((i ≤ 0 ∨ ((getAppendRules cfg).length : Int) < i) →
      deleteRuleAt cfg RuleKind.append (i - 1) = none) ∧
    (1 ≤ i → i ≤ ((getAppendRules cfg).length : Int) →
      deleteRuleAt cfg RuleKind.append (i - 1) =
        some (setAppendList cfg ((getAppendRules cfg).eraseIdx (i - 1).toNat))) := by
  rcases hrs : cfg.rules with _ | rs
  · refine ⟨fun _ => by simp [deleteRuleAt, hrs], fun h1 h2 => ?_⟩
    simp [getAppendRules, hrs] at h2; omega
  · rcases hl : rs.append_rules with _ | l
    · refine ⟨fun _ => by simp [deleteRuleAt, hrs, hl], fun h1 h2 => ?_⟩
      simp [getAppendRules, hrs, hl] at h2; omega
    · have hget : getAppendRules cfg = l := by simp [getAppendRules, hrs, hl]
      constructor
      · intro h
        rw [hget] at h
        simp only [deleteRuleAt, hrs, hl]
        rw [if_pos (by omega)]
      · intro h1 h2
        rw [hget] at h2
        simp only [deleteRuleAt, hrs, hl]
        rw [if_neg (by omega)]
        simp [setAppendList, hrs, hget]

/-- C7: for every rule kind and 1-based index `i` (converted to 0-based
by the command), removal fails — returning `none`, hence nothing is
popped and nothing is saved — exactly when `i ≤ 0` or `i` exceeds the
kind's effective rule-list length, and otherwise succeeds, producing
the same config with exactly the `i`-th entry of that list removed
(`List.eraseIdx`: later entries shift down by one, all other entries
and every other part of the config unchanged). -/
theorem c7_remove_index_bounds :
    ∀ (cfg : Config) (i : Int),
      (((i ≤ 0 ∨ ((getReplaceRules cfg).length : Int) < i) →
          deleteRuleAt cfg RuleKind.replace (i - 1) = none) ∧
        (1 ≤ i → i ≤ ((getReplaceRules cfg).length : Int) →
          deleteRuleAt cfg RuleKind.replace (i - 1) =
            some (setReplaceList cfg ((getReplaceRules cfg).eraseIdx (i - 1).toNat)))) ∧
      (((i ≤ 0 ∨ ((getDeleteRules cfg).length : Int) < i) →
          deleteRuleAt cfg RuleKind.delete (i - 1) = none) ∧
        (1 ≤ i → i ≤ ((getDeleteRules cfg).length : Int) →
          deleteRuleAt cfg RuleKind.delete (i - 1) =
            some (setDeleteList cfg ((getDeleteRules cfg).eraseIdx (i - 1).toNat)))) ∧
      (((i ≤ 0 ∨ ((getAppendRules cfg).length : Int) < i) →
          deleteRuleAt cfg RuleKind.append (i - 1) = none) ∧
        (1 ≤ i → i ≤ ((getAppendRules cfg).length : Int) →
          deleteRuleAt cfg RuleKind.append (i - 1) =
            some (setAppendList cfg ((getAppendRules cfg).eraseIdx (i - 1).toNat)))) :=
  fun cfg i => ⟨removeReplaceSpec cfg i, removeDeleteSpec cfg i, removeAppendSpec cfg i⟩

/-- Witness for C7: removing entry 2 of the three stored replace rules
succeeds and leaves `[p1, p3]`; removing entry 4 fails. -/
theorem c7_remove_index_bounds_witness :
    deleteRuleAt threeRuleConfig RuleKind.replace (2 - 1) =
      some (setReplaceList threeRuleConfig ((getReplaceRules threeRuleConfig).eraseIdx ((2 : Int) - 1).toNat)) ∧
    deleteRuleAt threeRuleConfig RuleKind.replace (4 - 1) = none :=
  ⟨((c7_remove_index_bounds threeRuleConfig 2).1).2 (by decide) (by decide),
   ((c7_remove_index_bounds threeRuleConfig 4).1).1 (by decide)⟩

/-! ## C9: fault isolation -/

theorem foldl_skip_middle {α β : Type} (f : β → α → β) (x : α) (l1 l2 : List α) (b : β)
    (h : ∀ acc, f acc x = acc) :
    List.foldl f b (l1 ++ x :: l2) = List.foldl f b (l1 ++ l2) := by
  rw [List.foldl_append, List.foldl_append, List.foldl_cons, h]

/-- C9: a rule whose pattern fails to compile (its `re.sub` raises
`re.error` on every buffer) leaves the buffer unmodified and the stage
continues: dropping it from anywhere in the list gives the same output,
for every input — in particular a rule set with one failing and one
valid rule behaves exactly like the one with only the valid rule, in
both the replace and the delete stage. -/
theorem c9_invalid_rule_skipped :
    ∀ (resub : ReSub) (input : String)
      (preR postR : List ReplaceRule) (badR : ReplaceRule)
      (preD postD : List DeleteRule) (badD : DeleteRule),
      (∀ repl flags s, resub (badR.pattern.getD "") repl flags s = none) →
      (∀ flags s, resub (badD.pattern.getD "") "" flags s = none) →
      applyReplaceRules resub (preR ++ badR :: postR) input =
        applyReplaceRules resub (preR ++ postR) input ∧
      applyDeleteRules resub (preD ++ badD :: postD) input =
        applyDeleteRules resub (preD ++ postD) input := by
  intro resub input preR postR badR preD postD badD hR hD
  constructor
  · apply foldl_skip_middle
    intro acc
    cases hb : badR.enabled.getD true <;> simp [hb, hR]
  · apply foldl_skip_middle
    intro acc
    cases hb : badD.enabled.getD true <;> simp [hb, hD]

/-- Witness for C9: the concrete pattern `"("` takes the compile-failure
path of `litReSub`, and prepending that failing rule to the valid rule
`a → b` changes nothing on the input `"ca"`. -/
theorem c9_invalid_rule_skipped_witness :
    litReSub "(" "x" 0 "ca" = none ∧
    applyReplaceRules litReSub ([] ++ badReplaceRule :: [goodReplaceRule]) "ca" =
      applyReplaceRules litReSub ([] ++ [goodReplaceRule]) "ca" ∧
    applyDeleteRules litReSub ([] ++ badDeleteRule :: []) "ca" =
      applyDeleteRules litReSub ([] ++ []) "ca" := by
  have hlit : isLitPattern "(" = false := by decide
  have hR : ∀ repl flags s, litReSub (badReplaceRule.pattern.getD "") repl flags s = none := by
    intro repl flags s
    simp [badReplaceRule, litReSub, hlit]
  have hD : ∀ flags s, litReSub (badDeleteRule.pattern.getD "") "" flags s = none := by
    intro flags s
    simp [badDeleteRule, litReSub, hlit]
  exact ⟨by simp [litReSub, hlit],
    (c9_invalid_rule_skipped litReSub "ca" [] [goodReplaceRule] badReplaceRule [] [] badDeleteRule hR hD).1,
    (c9_invalid_rule_skipped litReSub "ca" [] [goodReplaceRule] badReplaceRule [] [] badDeleteRule hR hD).2⟩

/-! ## C4: the test command versus the engine's replace+delete stages -/

/-- C4 (counterexample): the test command passes no flags to `re.sub`,
so on the rule `a → b` with `ignore_case = true` and input `"A"` it
returns `"A"` while the engine's replace stage returns `"b"`. -/
theorem c4_test_ignores_flags :
    testTransform litReSub ignoreCaseConfig "A" ≠
      engineReplaceDelete litReSub ignoreCaseConfig "A" ∧
    testTransform litReSub ignoreCaseConfig "A" = "A" ∧
    engineReplaceDelete litReSub ignoreCaseConfig "A" = "b" := by
  refine ⟨by decide, by decide, by decide⟩

theorem getReplaceRules_clearAll (cfg : Config) :
    getReplaceRules (clearAllRuleFlags cfg) = (getReplaceRules cfg).map clearFlagsReplace := by
  rcases h : cfg.rules with _ | rs
  · simp [getReplaceRules, clearAllRuleFlags, h]
  · rcases hl : rs.replace_rules with _ | l <;>
      simp [getReplaceRules, clearAllRuleFlags, h, hl]

theorem getDeleteRules_clearAll (cfg : Config) :
    getDeleteRules (clearAllRuleFlags cfg) = (getDeleteRules cfg).map clearFlagsDelete := by
  rcases h : cfg.rules with _ | rs
  · simp [getDeleteRules, clearAllRuleFlags, h]
  · rcases hl : rs.delete_rules with _ | l <;>
      simp [getDeleteRules, clearAllRuleFlags, h, hl]

theorem applyReplace_cleared_eq_test (resub : ReSub) (l : List ReplaceRule) (t : String) :
    applyReplaceRules resub (l.map clearFlagsReplace) t = testApplyReplace resub l t := by
  induction l generalizing t with
  | nil => rfl
  | cons r rs ih =>
    show List.foldl _ _ (clearFlagsReplace r :: rs.map clearFlagsReplace) =
      List.foldl _ _ (r :: rs)
    rw [List.foldl_cons, List.foldl_cons]
    have hstep :
        (if !(clearFlagsReplace r).enabled.getD true then t
         else
           match resub ((clearFlagsReplace r).pattern.getD "")
               ((clearFlagsReplace r).replacement.getD "")
               (ruleFlags ((clearFlagsReplace r).ignore_case.getD false)
                 ((clearFlagsReplace r).multiline.getD false)) t with
           | some out => out
           | none => t) =
        (if !r.enabled.getD true then t
         else
           match resub (r.pattern.getD "") (r.replacement.getD "") 0 t with
           | some out => out
           | none => t) := by
      simp [clearFlagsReplace, ruleFlags, reIGNORECASE, reMULTILINE]
    exact hstep ▸ ih _

/-! the same fact for the delete stage -/
theorem applyDelete_cleared_eq_test (resub : ReSub) (l : List DeleteRule) (t : String) :
    applyDeleteRules resub (l.map clearFlagsDelete) t = testApplyDelete resub l t := by
  induction l generalizing t with
  | nil => rfl
  | cons r rs ih =>
    show List.foldl _ _ (clearFlagsDelete r :: rs.map clearFlagsDelete) =
      List.foldl _ _ (r :: rs)
    rw [List.foldl_cons, List.foldl_cons]
    have hstep :
        (if !(clearFlagsDelete r).enabled.getD true then t
         else
           match resub ((clearFlagsDelete r).pattern.getD "") ""
               (ruleFlags ((clearFlagsDelete r).ignore_case.getD false)
                 ((clearFlagsDelete r).multiline.getD false)) t with
           | some out => out
           | none => t) =
        (if !r.enabled.getD true then t
         else
           match resub (r.pattern.getD "") "" 0 t with
           | some out => out
           | none => t) := by
      simp [clearFlagsDelete, ruleFlags, reIGNORECASE, reMULTILINE]
    exact hstep ▸ ih _

/-- C4 (amended): the test command applies the engine's replace and
delete stages with every rule's `ignore_case`/`multiline` flags
ignored (treated as cleared); append and whitespace normalization are
excluded, and the command persists nothing (it is a pure function of
the loaded rule set).  Equality with the true engine stages holds
exactly up to that flag erasure. -/
theorem c4_test_equals_engine_without_flags :
    ∀ (resub : ReSub) (cfg : Config) (text : String),
      testTransform resub cfg text =
        engineReplaceDelete resub (clearAllRuleFlags cfg) text := by
  intro resub cfg text
  unfold testTransform engineReplaceDelete
  rw [getReplaceRules_clearAll, getDeleteRules_clearAll,
    applyReplace_cleared_eq_test, applyDelete_cleared_eq_test]

/-! ## C10: frame effect on the llm_response dictionary -/

/-- C10: the handler writes only the `"content"` field, and only when
the fully transformed and normalized result differs from the original
content; otherwise the response map is untouched. -/
theorem c10_llm_response_frame :
    ∀ (resub : ReSub) (cfg : Config) (resp : String → Option String),
      (∀ k, k ≠ "content" → updateLlmResponse resub cfg resp k = resp k) ∧
      (updateLlmResponse resub cfg resp = resp ∨
        ∃ orig, resp "content" = some orig ∧ orig ≠ "" ∧
          processedResult resub cfg orig ≠ orig ∧
          updateLlmResponse resub cfg resp =
            fun k => if k = "content" then some (processedResult resub cfg orig) else resp k) := by
  intro resub cfg resp
  cases hp : pluginEnabled cfg
  · have hu : updateLlmResponse resub cfg resp = resp := by
      unfold updateLlmResponse; rw [hp]; rfl
    rw [hu]
    exact ⟨fun _ _ => rfl, Or.inl rfl⟩
  · rcases hc : resp "content" with _ | orig
    · have hu : updateLlmResponse resub cfg resp = resp := by
        unfold updateLlmResponse; rw [hp, hc]; rfl
      rw [hu]
      exact ⟨fun _ _ => rfl, Or.inl rfl⟩
    · by_cases ho : orig = ""
      · have hu : updateLlmResponse resub cfg resp = resp := by
          unfold updateLlmResponse; rw [hp, hc]; simp [ho]
        rw [hu]
        exact ⟨fun _ _ => rfl, Or.inl rfl⟩
      · by_cases hcl : processedResult resub cfg orig = orig
        · have hu : updateLlmResponse resub cfg resp = resp := by
            unfold updateLlmResponse; rw [hp, hc]; simp [ho, hcl]
          rw [hu]
          exact ⟨fun _ _ => rfl, Or.inl rfl⟩
        · have hu : updateLlmResponse resub cfg resp =
              fun k => if k = "content" then some (processedResult resub cfg orig) else resp k := by
            unfold updateLlmResponse; rw [hp, hc]; simp [ho, hcl]
          rw [hu]
          refine ⟨fun k hk => by simp [hk], Or.inr ⟨orig, rfl, ho, hcl, rfl⟩⟩

/-- Witness for C10: on a concrete response map, fields other than
`"content"` are untouched. -/
theorem c10_llm_response_frame_witness :
    ("other" : String) ≠ "content" ∧
    updateLlmResponse litReSub emptyConfig sampleResponse "other" = sampleResponse "other" :=
  ⟨by decide, (c10_llm_response_frame litReSub emptyConfig sampleResponse).1 "other" (by decide)⟩

/-! ## C8: lossless save/load round trip -/

theorem unescape_escape_chars : ∀ l : List Char, unescapeTomlChars (l.flatMap escChar) = l := by
  intro l
  induction l with
  | nil => rfl
  | cons c cs ih =>
    rw [List.flatMap_cons]
    by_cases h1 : c = '\\'
    · subst h1
      have he : escChar '\\' = ['\\', '\\'] := by decide
      have hd : unescDecode '\\' = '\\' := by decide
      rw [he, List.cons_append, List.cons_append, List.nil_append]
      simp [unescapeTomlChars, hd, ih]
    · by_cases h2 : c = '"'
      · subst h2
        have he : escChar '"' = ['\\', '"'] := by decide
        have hd : unescDecode '"' = '"' := by decide
        rw [he, List.cons_append, List.cons_append, List.nil_append]
        simp [unescapeTomlChars, hd, ih]
      · by_cases h3 : c = '\n'
        · subst h3
          have he : escChar '\n' = ['\\', 'n'] := by decide
          have hd : unescDecode 'n' = '\n' := by decide
          rw [he, List.cons_append, List.cons_append, List.nil_append]
          simp [unescapeTomlChars, hd, ih]
        · by_cases h4 : c = '\r'
          · subst h4
            have he : escChar '\r' = ['\\', 'r'] := by decide
            have hd : unescDecode 'r' = '\r' := by decide
            rw [he, List.cons_append, List.cons_append, List.nil_append]
            simp [unescapeTomlChars, hd, ih]
          · by_cases h5 : c = '\t'
            · subst h5
              have he : escChar '\t' = ['\\', 't'] := by decide
              have hd : unescDecode 't' = '\t' := by decide
              rw [he, List.cons_append, List.cons_append, List.nil_append]
              simp [unescapeTomlChars, hd, ih]
            · have he : escChar c = [c] := by
                simp only [escChar, if_neg h1, if_neg h2, if_neg h3, if_neg h4, if_neg h5]
              rw [he]
              rcases hx : cs.flatMap escChar with _ | ⟨d, ds⟩
              · have hcs : cs = [] := by rw [← ih, hx]; rfl
                subst hcs
                rfl
              · rw [List.singleton_append]
                show unescapeTomlChars (c :: d :: ds) = c :: cs
                rw [unescapeTomlChars, if_neg h1, ← hx, ih]

theorem unescape_escape (s : String) : unescapeTomlString (escapeTomlString s) = s := by
  cases s with
  | mk l => exact congrArg String.mk (unescape_escape_chars l)

theorem optionMap_unescape_escape (o : Option String) :
    Option.map (unescapeTomlString ∘ escapeTomlString) o = o := by
  cases o with
  | none => rfl
  | some s => simp [unescape_escape]

theorem optionMap_unescape_escape' (o : Option String) :
    (o.map escapeTomlString).map unescapeTomlString = o := by
  rw [Option.map_map, optionMap_unescape_escape]

theorem replaceRule_roundtrip_view (r : ReplaceRule) :
    replaceRuleView (parseReplaceRule (writeReplaceRule r)) = replaceRuleView r := by
  simp [replaceRuleView, parseReplaceRule, writeReplaceRule, unescape_escape,
    optionMap_unescape_escape, optionMap_unescape_escape']

theorem deleteRule_roundtrip_view (r : DeleteRule) :
    deleteRuleView (parseDeleteRule (writeDeleteRule r)) = deleteRuleView r := by
  simp [deleteRuleView, parseDeleteRule, writeDeleteRule, unescape_escape,
    optionMap_unescape_escape, optionMap_unescape_escape']

theorem appendRule_roundtrip_view (r : AppendRule) :
    appendRuleView (parseAppendRule (writeAppendRule r)) = appendRuleView r := by
  simp [appendRuleView, parseAppendRule, writeAppendRule, unescape_escape,
    optionMap_unescape_escape, optionMap_unescape_escape']

theorem ruleList_roundtrip_view {α β γ : Type} (write : α → β) (parse : β → α) (view : α → γ)
    (h : ∀ r, view (parse (write r)) = view r) (o : Option (List α)) :
    List.map view (((writeRuleList write o).map (List.map parse)).getD []) =
      List.map view (o.getD []) := by
  rcases o with _ | (_ | ⟨x, xs⟩)
  · rfl
  · rfl
  · show List.map view (List.map parse (List.map write (x :: xs))) = List.map view (x :: xs)
    rw [List.map_map, List.map_map]
    exact List.map_congr_left (fun a _ => h a)

theorem config_roundtrip_view (c : Config) :
    configView (parseConfigBack (writeConfig c)) = configView c := by
  rcases c with ⟨plugin, rules, advanced⟩
  rcases rules with _ | ⟨rr, dr, ar⟩
  · rcases plugin with _ | ⟨en, ver⟩ <;> rcases advanced with _ | ⟨mcl, lc⟩ <;>
      simp [configView, parseConfigBack, writeConfig, getReplaceRules, getDeleteRules,
        getAppendRules, optionMap_unescape_escape, optionMap_unescape_escape']
  · rcases plugin with _ | ⟨en, ver⟩ <;> rcases advanced with _ | ⟨mcl, lc⟩ <;>
      simp [configView, parseConfigBack, writeConfig, getReplaceRules, getDeleteRules,
        getAppendRules, optionMap_unescape_escape, optionMap_unescape_escape',
        ruleList_roundtrip_view writeReplaceRule parseReplaceRule replaceRuleView
          replaceRule_roundtrip_view rr,
        ruleList_roundtrip_view writeDeleteRule parseDeleteRule deleteRuleView
          deleteRule_roundtrip_view dr,
        ruleList_roundtrip_view writeAppendRule parseAppendRule appendRuleView
          appendRule_roundtrip_view ar]

/-- C8: the save/load round trip is lossless: for every rule set
obtained from `load_config`, writing it with `_generate_toml_content`
(sections in order, per-rule defaults materialised, strings escaped)
and reading the document back yields the plugin section, the three rule
lists — identical in order and in every data-model field (pattern,
replacement, enabled, ignore_case, multiline, description, content,
position) — and the advanced section unchanged. -/
theorem c8_load_save_load_lossless :
    ∀ fs : FileState,
      configView (parseConfigBack (writeConfig (load_config fs))) =
        configView (load_config fs) :=
  fun fs => config_roundtrip_view (load_config fs)

/-! ## C5: idempotence of the whitespace normalization

Plan: each stage of `normL` has a normal-form predicate on which it is
the identity (`EdgeOk`, `NlOk`, `CsOk`, `SaOk`, `SbOk`); each stage
establishes its own predicate and preserves those already established,
so a second pass changes nothing. -/

theorem collapseBlankL_nil : collapseBlankL [] = [] := by
  simp [collapseBlankL]

theorem collapseBlankL_cons (c : Char) (cs : List Char) :
    collapseBlankL (c :: cs) =
      if c = '\n' ∧ '\n' ∈ cs.takeWhile isPySpace then
        '\n' :: '\n' :: collapseBlankL (cs.dropWhile isPySpace)
      else c :: collapseBlankL cs := by
  simp [collapseBlankL]

theorem collapseSpacesL_nil : collapseSpacesL [] = [] := by
  simp [collapseSpacesL]

theorem collapseSpacesL_cons (c : Char) (cs : List Char) :
    collapseSpacesL (c :: cs) =
      if isHSpace c then ' ' :: collapseSpacesL (cs.dropWhile isHSpace)
      else c :: collapseSpacesL cs := by
  simp [collapseSpacesL]

theorem stripAfterNlL_nil : stripAfterNlL [] = [] := by
  simp [stripAfterNlL]

theorem stripAfterNlL_cons (c : Char) (cs : List Char) :
    stripAfterNlL (c :: cs) =
      if c = '\n' then '\n' :: stripAfterNlL (cs.dropWhile isHSpace)
      else c :: stripAfterNlL cs := by
  simp [stripAfterNlL]

theorem stripBeforeNlL_nil : stripBeforeNlL [] = [] := by
  simp [stripBeforeNlL]

theorem stripBeforeNlL_cons (c : Char) (cs : List Char) :
    stripBeforeNlL (c :: cs) =
      if isHSpace c then
        if (cs.dropWhile isHSpace).head? = some '\n' then
          '\n' :: stripBeforeNlL (cs.dropWhile isHSpace).tail
        else (c :: cs.takeWhile isHSpace) ++ stripBeforeNlL (cs.dropWhile isHSpace)
      else c :: stripBeforeNlL cs := by
  simp [stripBeforeNlL]

theorem hsp_space_or_tab {c : Char} (h : isHSpace c = true) : c = ' ' ∨ c = '\t' := by
  simp only [isHSpace, Bool.or_eq_true, beq_iff_eq] at h
  exact h

theorem hsp_py {c : Char} (h : isHSpace c = true) : isPySpace c = true := by
  rcases hsp_space_or_tab h with h' | h' <;> subst h' <;> decide

theorem not_py_not_hsp {c : Char} (h : isPySpace c = false) : isHSpace c = false := by
  cases hh : isHSpace c
  · rfl
  · rw [hsp_py hh] at h
    exact Bool.noConfusion h

theorem nl_py : isPySpace '\n' = true := by decide

theorem nl_not_hsp : isHSpace '\n' = false := by decide

/-! generic head/run helpers -/

theorem head_dropWhile_false (p : Char → Bool) (l : List Char) :
    ∀ c, (l.dropWhile p).head? = some c → p c = false := by
  induction l with
  | nil => intro c h; cases h
  | cons x xs ih =>
    intro c h
    rw [List.dropWhile_cons] at h
    by_cases hp : p x = true
    · rw [if_pos hp] at h
      exact ih c h
    · rw [if_neg hp] at h
      cases h
      cases hb : p x
      · rfl
      · exact absurd hb hp

theorem dropWhile_of_head_false {p : Char → Bool} {l : List Char}
    (h : ∀ c, l.head? = some c → p c = false) : l.dropWhile p = l := by
  cases l with
  | nil => rfl
  | cons x xs =>
    rw [List.dropWhile_cons, if_neg]
    rw [h x rfl]
    simp

theorem takeWhile_nil_of_head_false {p : Char → Bool} {l : List Char}
    (h : ∀ c, l.head? = some c → p c = false) : l.takeWhile p = [] := by
  cases l with
  | nil => rfl
  | cons x xs =>
    rw [List.takeWhile_cons, if_neg]
    rw [h x rfl]
    simp

theorem takeWhile_append_all {p : Char → Bool} {xs ys : List Char}
    (h : ∀ c ∈ xs, p c = true) : (xs ++ ys).takeWhile p = xs ++ ys.takeWhile p := by
  induction xs with
  | nil => rfl
  | cons x xs ih =>
    rw [List.cons_append, List.takeWhile_cons, if_pos (h x (List.mem_cons_self x xs)),
      ih (fun c hc => h c (List.mem_cons_of_mem x hc)), List.cons_append]

theorem mem_takeWhile_append {p : Char → Bool} {xs ys : List Char} {c : Char}
    (h : c ∈ xs.takeWhile p) : c ∈ (xs ++ ys).takeWhile p := by
  induction xs with
  | nil => cases h
  | cons x xs ih =>
    rw [List.takeWhile_cons] at h
    by_cases hp : p x = true
    · rw [if_pos hp] at h
      rw [List.cons_append, List.takeWhile_cons, if_pos hp]
      rcases List.mem_cons.mp h with h' | h'
      · exact h' ▸ List.mem_cons_self _ _
      · exact List.mem_cons_of_mem _ (ih h')
    · rw [if_neg hp] at h
      cases h

/-- Splitting the `\s`-prefix across the `[ \t]`-run decomposition. -/
theorem takeWhile_py_split_hsp (v : List Char) :
    v.takeWhile isPySpace =
      v.takeWhile isHSpace ++ (v.dropWhile isHSpace).takeWhile isPySpace := by
  conv_lhs => rw [← List.takeWhile_append_dropWhile isHSpace v]
  exact takeWhile_append_all (fun c hc => hsp_py (List.mem_takeWhile_imp hc))

theorem mem_takeWhile_py_dropH {v : List Char} {c : Char}
    (h : c ∈ (v.dropWhile isHSpace).takeWhile isPySpace) : c ∈ v.takeWhile isPySpace := by
  rw [takeWhile_py_split_hsp v]
  exact List.mem_append_right _ h

/-! head preservation through the stages -/

theorem headNotPy_collapseBlank {l : List Char} (h : HeadNotPy l) :
    HeadNotPy (collapseBlankL l) := by
  cases l with
  | nil => rw [collapseBlankL_nil]; exact h
  | cons c cs =>
    have hc : isPySpace c = false := h c rfl
    have hcn : ¬(c = '\n' ∧ '\n' ∈ cs.takeWhile isPySpace) := by
      rintro ⟨h1, _⟩
      rw [h1, nl_py] at hc
      exact Bool.noConfusion hc
    rw [collapseBlankL_cons, if_neg hcn]
    intro d hd
    cases hd
    exact hc

theorem headNotPy_collapseSpaces {l : List Char} (h : HeadNotPy l) :
    HeadNotPy (collapseSpacesL l) := by
  cases l with
  | nil => rw [collapseSpacesL_nil]; exact h
  | cons c cs =>
    have hc : isPySpace c = false := h c rfl
    rw [collapseSpacesL_cons, if_neg (by rw [not_py_not_hsp hc]; simp)]
    intro d hd
    cases hd
    exact hc

theorem head_stripAfterNl (l : List Char) : (stripAfterNlL l).head? = l.head? := by
  cases l with
  | nil => rw [stripAfterNlL_nil]
  | cons c cs =>
    by_cases hc : c = '\n'
    · subst hc
      rw [stripAfterNlL_cons, if_pos rfl]
      rfl
    · rw [stripAfterNlL_cons, if_neg hc]
      rfl

theorem headNotPy_stripAfterNl {l : List Char} (h : HeadNotPy l) :
    HeadNotPy (stripAfterNlL l) := by
  intro c hc
  rw [head_stripAfterNl] at hc
  exact h c hc

theorem stripBeforeNl_cons_not_hsp {d : Char} {ds : List Char} (h : isHSpace d = false) :
    stripBeforeNlL (d :: ds) = d :: stripBeforeNlL ds := by
  rw [stripBeforeNlL_cons, if_neg (by rw [h]; simp)]

theorem headNotH_head_stripBeforeNl {l : List Char} (h : HeadNotH l) :
    (stripBeforeNlL l).head? = l.head? := by
  cases l with
  | nil => rw [stripBeforeNlL_nil]
  | cons d ds =>
    rw [stripBeforeNl_cons_not_hsp (h d rfl)]
    rfl

theorem headNotPy_stripBeforeNl {l : List Char} (h : HeadNotPy l) :
    HeadNotPy (stripBeforeNlL l) := by
  intro c hc
  have hh : HeadNotH l := fun d hd => not_py_not_hsp (h d hd)
  rw [headNotH_head_stripBeforeNl hh] at hc
  exact h c hc

/-! ## Fixpoint lemmas: each stage is the identity on its normal form -/

theorem pstrip_id {l : List Char} (h : EdgeOk l) : pstripL l = l := by
  have h1 : l.dropWhile isPySpace = l := dropWhile_of_head_false h.1
  have h2 : l.reverse.dropWhile isPySpace = l.reverse := dropWhile_of_head_false h.2
  unfold pstripL
  rw [h1, h2, List.reverse_reverse]

theorem collapseBlank_id : ∀ l : List Char, NlOk l → collapseBlankL l = l := by
  intro l
  induction l using collapseBlankL.induct with
  | case1 => intro _; exact collapseBlankL_nil
  | case2 c cs hcond ih =>
    intro h
    obtain ⟨hhead, htail⟩ := h.1 hcond.1 hcond.2
    rcases cs with _ | ⟨d, cs'⟩
    · cases hhead
    · cases hhead
      have hdrop : ('\n' :: cs').dropWhile isPySpace = cs'.dropWhile isPySpace := by
        rw [List.dropWhile_cons, if_pos nl_py]
      have hdrop2 : cs'.dropWhile isPySpace = cs' := dropWhile_of_head_false htail
      have hcs' : collapseBlankL cs' = cs' := by
        have := ih
        rw [hdrop, hdrop2] at this
        exact this (h.2).2
      rw [collapseBlankL_cons, if_pos hcond, hdrop, hdrop2, hcs', hcond.1]
  | case3 c cs hcond ih =>
    intro h
    rw [collapseBlankL_cons, if_neg hcond, ih h.2]

theorem collapseSpaces_id : ∀ l : List Char, CsOk l → collapseSpacesL l = l := by
  intro l
  induction l using collapseSpacesL.induct with
  | case1 => intro _; exact collapseSpacesL_nil
  | case2 c cs hcond ih =>
    intro h
    have hc : c = ' ' := by
      rcases hsp_space_or_tab hcond with h' | h'
      · exact h'
      · exact absurd h' (h.1 c (List.mem_cons_self c cs))
    have hnext : ∀ y, cs.head? = some y → isHSpace y = false := by
      intro y hy
      have := (List.chain'_cons'.mp h.2).1 y (by rw [hy]; rfl)
      cases hb : isHSpace y
      · rfl
      · exact absurd ⟨hcond, hb⟩ this
    have hdrop : cs.dropWhile isHSpace = cs := dropWhile_of_head_false hnext
    rw [collapseSpacesL_cons, if_pos hcond, hdrop, hc]
    rw [hdrop] at ih
    exact congrArg _ (ih ⟨fun d hd => h.1 d (List.mem_cons_of_mem c hd),
      (List.chain'_cons'.mp h.2).2⟩)
  | case3 c cs hcond ih =>
    intro h
    rw [collapseSpacesL_cons, if_neg hcond]
    exact congrArg _ (ih ⟨fun d hd => h.1 d (List.mem_cons_of_mem c hd),
      (List.chain'_cons'.mp h.2).2⟩)

theorem stripAfterNl_id : ∀ l : List Char, SaOk l → stripAfterNlL l = l := by
  intro l
  induction l using stripAfterNlL.induct with
  | case1 => intro _; exact stripAfterNlL_nil
  | case2 cs ih =>
    intro h
    have hnext : ∀ y, cs.head? = some y → isHSpace y = false := by
      intro y hy
      have := (List.chain'_cons'.mp h).1 y (by rw [hy]; rfl)
      cases hb : isHSpace y
      · rfl
      · exact absurd ⟨rfl, hb⟩ this
    have hdrop : cs.dropWhile isHSpace = cs := dropWhile_of_head_false hnext
    rw [stripAfterNlL_cons, if_pos rfl, hdrop]
    rw [hdrop] at ih
    exact congrArg _ (ih (List.chain'_cons'.mp h).2)
  | case3 c cs hcond ih =>
    intro h
    rw [stripAfterNlL_cons, if_neg hcond]
    exact congrArg _ (ih (List.chain'_cons'.mp h).2)

theorem sbOk_no_nl_after_run :
    ∀ {cs : List Char} {c : Char}, SbOk (c :: cs) → isHSpace c = true →
      (cs.dropWhile isHSpace).head? ≠ some '\n' := by
  intro cs
  induction cs with
  | nil => intro c _ _ hbad; cases hbad
  | cons d ds ih =>
    intro c h hc hbad
    rw [List.dropWhile_cons] at hbad
    by_cases hd : isHSpace d = true
    · rw [if_pos hd] at hbad
      exact ih ((List.chain'_cons'.mp h).2) hd hbad
    · rw [if_neg hd] at hbad
      cases hbad
      exact absurd ⟨hc, rfl⟩ ((List.chain'_cons'.mp h).1 '\n' rfl)

theorem stripBeforeNl_id : ∀ l : List Char, SbOk l → stripBeforeNlL l = l := by
  intro l
  induction l using stripBeforeNlL.induct with
  | case1 => intro _; exact stripBeforeNlL_nil
  | case2 c cs hcond hhead ih =>
    intro h
    exact absurd hhead (sbOk_no_nl_after_run h hcond)
  | case3 c cs hcond hhead ih =>
    intro h
    have hsb : SbOk (cs.dropWhile isHSpace) := by
      have h2 : SbOk cs := (List.chain'_cons'.mp h).2
      rw [← List.takeWhile_append_dropWhile isHSpace cs] at h2
      exact (List.chain'_append.mp h2).2.1
    rw [stripBeforeNlL_cons, if_pos hcond, if_neg hhead, ih hsb, List.cons_append,
      List.takeWhile_append_dropWhile]
  | case4 c cs hcond ih =>
    intro h
    have hc : isHSpace c = false := by
      cases hb : isHSpace c
      · rfl
      · exact absurd hb hcond
    rw [stripBeforeNl_cons_not_hsp hc]
    exact congrArg _ (ih (List.chain'_cons'.mp h).2)

/-! ## Closure of the normal-form predicates under append decomposition -/

theorem nlOk_append_right {xs ys : List Char} (h : NlOk (xs ++ ys)) : NlOk ys := by
  induction xs with
  | nil => exact h
  | cons x xs ih => exact ih h.2

theorem nlOk_append_left {xs ys : List Char} (h : NlOk (xs ++ ys)) : NlOk xs := by
  induction xs with
  | nil => trivial
  | cons x xs ih =>
    refine ⟨?_, ih h.2⟩
    intro hx htrig
    have htrigb : '\n' ∈ (xs ++ ys).takeWhile isPySpace := mem_takeWhile_append htrig
    obtain ⟨hhead, htail⟩ := h.1 hx htrigb
    have hne : xs ≠ [] := by
      rintro rfl
      cases htrig
    rcases xs with _ | ⟨d, xs'⟩
    · exact absurd rfl hne
    · have hd : d = '\n' := Option.some.inj hhead
      subst hd
      refine ⟨rfl, ?_⟩
      intro e he
      rcases xs' with _ | ⟨f, xs''⟩
      · cases he
      · exact htail e he

theorem nlOk_dropWhile (p : Char → Bool) {l : List Char} (h : NlOk l) :
    NlOk (l.dropWhile p) := by
  rw [← List.takeWhile_append_dropWhile p l] at h
  exact nlOk_append_right h

theorem nlOk_append_no_nl {xs ys : List Char} (hx : ∀ d ∈ xs, d ≠ '\n') (hy : NlOk ys) :
    NlOk (xs ++ ys) := by
  induction xs with
  | nil => exact hy
  | cons x xs ih =>
    refine ⟨?_, ih (fun d hd => hx d (List.mem_cons_of_mem x hd))⟩
    intro hxnl
    exact absurd hxnl (hx x (List.mem_cons_self x xs))

theorem csOk_append_right {xs ys : List Char} (h : CsOk (xs ++ ys)) : CsOk ys :=
  ⟨fun c hc => h.1 c (List.mem_append_right xs hc), (List.chain'_append.mp h.2).2.1⟩

theorem csOk_append_left {xs ys : List Char} (h : CsOk (xs ++ ys)) : CsOk xs :=
  ⟨fun c hc => h.1 c (List.mem_append_left ys hc), (List.chain'_append.mp h.2).1⟩

theorem csOk_dropWhile (p : Char → Bool) {l : List Char} (h : CsOk l) :
    CsOk (l.dropWhile p) := by
  rw [← List.takeWhile_append_dropWhile p l] at h
  exact csOk_append_right h

theorem csOk_tail {c : Char} {cs : List Char} (h : CsOk (c :: cs)) : CsOk cs :=
  ⟨fun d hd => h.1 d (List.mem_cons_of_mem c hd), (List.chain'_cons'.mp h.2).2⟩

theorem saOk_append_right {xs ys : List Char} (h : SaOk (xs ++ ys)) : SaOk ys :=
  (List.chain'_append.mp h).2.1

theorem saOk_append_left {xs ys : List Char} (h : SaOk (xs ++ ys)) : SaOk xs :=
  (List.chain'_append.mp h).1

theorem saOk_dropWhile (p : Char → Bool) {l : List Char} (h : SaOk l) :
    SaOk (l.dropWhile p) := by
  rw [← List.takeWhile_append_dropWhile p l] at h
  exact saOk_append_right h

theorem sbOk_append_right {xs ys : List Char} (h : SbOk (xs ++ ys)) : SbOk ys :=
  (List.chain'_append.mp h).2.1

theorem sbOk_append_left {xs ys : List Char} (h : SbOk (xs ++ ys)) : SbOk xs :=
  (List.chain'_append.mp h).1

/-! ## pstrip produces an inner segment and trimmed edges -/

theorem pstrip_decomp (l : List Char) :
    l = l.takeWhile isPySpace ++
      (pstripL l ++ ((l.dropWhile isPySpace).reverse.takeWhile isPySpace).reverse) := by
  conv_lhs => rw [← List.takeWhile_append_dropWhile isPySpace l]
  congr 1
  conv_lhs => rw [← List.reverse_reverse (l.dropWhile isPySpace)]
  conv_lhs =>
    rw [← List.takeWhile_append_dropWhile isPySpace (l.dropWhile isPySpace).reverse]
  rw [List.reverse_append]
  rfl

theorem nlOk_pstrip {l : List Char} (h : NlOk l) : NlOk (pstripL l) := by
  rw [pstrip_decomp l] at h
  exact nlOk_append_left (nlOk_append_right h)

theorem csOk_pstrip {l : List Char} (h : CsOk l) : CsOk (pstripL l) := by
  rw [pstrip_decomp l] at h
  exact csOk_append_left (csOk_append_right h)

theorem saOk_pstrip {l : List Char} (h : SaOk l) : SaOk (pstripL l) := by
  rw [pstrip_decomp l] at h
  exact saOk_append_left (saOk_append_right h)

theorem sbOk_pstrip {l : List Char} (h : SbOk l) : SbOk (pstripL l) := by
  rw [pstrip_decomp l] at h
  exact sbOk_append_left (sbOk_append_right h)

theorem edgeOk_pstrip (l : List Char) : EdgeOk (pstripL l) := by
  constructor
  · intro c hc
    have hm : HeadNotPy (l.dropWhile isPySpace) :=
      fun d hd => head_dropWhile_false isPySpace l d hd
    have hdec : l.dropWhile isPySpace =
        pstripL l ++ ((l.dropWhile isPySpace).reverse.takeWhile isPySpace).reverse := by
      conv_lhs => rw [← List.reverse_reverse (l.dropWhile isPySpace)]
      conv_lhs =>
        rw [← List.takeWhile_append_dropWhile isPySpace (l.dropWhile isPySpace).reverse]
      rw [List.reverse_append]
      rfl
    have hhead : (l.dropWhile isPySpace).head? = some c := by
      rw [hdec, List.head?_append, hc]
      rfl
    exact hm c hhead
  · intro c hc
    unfold pstripL at hc
    rw [List.reverse_reverse] at hc
    exact head_dropWhile_false isPySpace _ c hc

/-! ## Establishment: each stage produces its own normal form -/

theorem mem_of_head?_eq {l : List Char} {y : Char} (h : l.head? = some y) : y ∈ l := by
  cases l with
  | nil => cases h
  | cons x xs =>
    cases h
    exact List.mem_cons_self _ _

theorem cb_no_nl_run {w rest : List Char}
    (h : ∀ c ∈ w, isPySpace c = true ∧ c ≠ '\n') :
    collapseBlankL (w ++ rest) = w ++ collapseBlankL rest := by
  induction w with
  | nil => rfl
  | cons d w' ih =>
    have hd := h d (List.mem_cons_self d w')
    rw [List.cons_append, collapseBlankL_cons, if_neg (by rintro ⟨h1, _⟩; exact hd.2 h1),
      ih (fun c hc => h c (List.mem_cons_of_mem d hc)), List.cons_append]

theorem cb_preserves_no_trig {cs : List Char}
    (h : '\n' ∉ cs.takeWhile isPySpace) :
    '\n' ∉ (collapseBlankL cs).takeWhile isPySpace := by
  have hw : ∀ c ∈ cs.takeWhile isPySpace, isPySpace c = true ∧ c ≠ '\n' := by
    intro c hc
    exact ⟨List.mem_takeWhile_imp hc, fun hcn => h (hcn ▸ hc)⟩
  have hcb : collapseBlankL cs =
      cs.takeWhile isPySpace ++ collapseBlankL (cs.dropWhile isPySpace) := by
    conv_lhs => rw [← List.takeWhile_append_dropWhile isPySpace cs]
    exact cb_no_nl_run hw
  have hr : HeadNotPy (collapseBlankL (cs.dropWhile isPySpace)) :=
    headNotPy_collapseBlank (fun d hd => head_dropWhile_false isPySpace cs d hd)
  rw [hcb, takeWhile_append_all (fun c hc => (hw c hc).1), takeWhile_nil_of_head_false hr,
    List.append_nil]
  intro hmem
  exact (hw '\n' hmem).2 rfl

theorem nlOk_collapseBlank : ∀ l : List Char, NlOk (collapseBlankL l) := by
  intro l
  induction l using collapseBlankL.induct with
  | case1 => rw [collapseBlankL_nil]; trivial
  | case2 c cs hcond ih =>
    rw [collapseBlankL_cons, if_pos hcond]
    have hr : HeadNotPy (collapseBlankL (cs.dropWhile isPySpace)) :=
      headNotPy_collapseBlank (fun d hd => head_dropWhile_false isPySpace cs d hd)
    refine ⟨fun _ _ => ⟨rfl, ?_⟩, fun _ htrig2 => ?_, ih⟩
    · exact hr
    · rw [takeWhile_nil_of_head_false hr] at htrig2
      cases htrig2
  | case3 c cs hcond ih =>
    rw [collapseBlankL_cons, if_neg hcond]
    refine ⟨fun hc htrig => ?_, ih⟩
    exact absurd htrig (cb_preserves_no_trig (fun ht => hcond ⟨hc, ht⟩))

theorem headNotH_collapseSpaces {l : List Char} (h : HeadNotH l) :
    HeadNotH (collapseSpacesL l) := by
  cases l with
  | nil => rw [collapseSpacesL_nil]; exact h
  | cons c cs =>
    have hc : isHSpace c = false := h c rfl
    rw [collapseSpacesL_cons, if_neg (by rw [hc]; simp)]
    intro d hd
    cases hd
    exact hc

theorem csOk_collapseSpaces : ∀ l : List Char, CsOk (collapseSpacesL l) := by
  intro l
  induction l using collapseSpacesL.induct with
  | case1 =>
    rw [collapseSpacesL_nil]
    exact ⟨fun c hc => absurd hc (List.not_mem_nil c), List.chain'_nil⟩
  | case2 c cs hcond ih =>
    rw [collapseSpacesL_cons, if_pos hcond]
    constructor
    · intro d hd
      rcases List.mem_cons.mp hd with h' | h'
      · subst h'; decide
      · exact ih.1 d h'
    · refine List.chain'_cons'.mpr ⟨?_, ih.2⟩
      intro y hy
      rintro ⟨_, hy2⟩
      have hnh : HeadNotH (collapseSpacesL (cs.dropWhile isHSpace)) :=
        headNotH_collapseSpaces (fun d hd => head_dropWhile_false isHSpace cs d hd)
      rw [hnh y hy] at hy2
      exact Bool.noConfusion hy2
  | case3 c cs hcond ih =>
    rw [collapseSpacesL_cons, if_neg hcond]
    constructor
    · intro d hd
      rcases List.mem_cons.mp hd with h' | h'
      · subst h'
        intro hdt
        subst hdt
        exact hcond (by decide)
      · exact ih.1 d h'
    · refine List.chain'_cons'.mpr ⟨?_, ih.2⟩
      intro y hy
      rintro ⟨h1, _⟩
      exact hcond h1

theorem saOk_stripAfterNl : ∀ l : List Char, SaOk (stripAfterNlL l) := by
  intro l
  induction l using stripAfterNlL.induct with
  | case1 => rw [stripAfterNlL_nil]; exact List.chain'_nil
  | case2 cs ih =>
    rw [stripAfterNlL_cons, if_pos rfl]
    refine List.chain'_cons'.mpr ⟨?_, ih⟩
    intro y hy
    rintro ⟨_, hy2⟩
    rw [head_stripAfterNl] at hy
    rw [head_dropWhile_false isHSpace cs y hy] at hy2
    exact Bool.noConfusion hy2
  | case3 c cs hcond ih =>
    rw [stripAfterNlL_cons, if_neg hcond]
    refine List.chain'_cons'.mpr ⟨?_, ih⟩
    intro y hy
    rintro ⟨h1, _⟩
    exact hcond h1

theorem chain'_sb_all {l : List Char} (h : ∀ b ∈ l, b ≠ '\n') :
    l.Chain' (fun a b => ¬(isHSpace a = true ∧ b = '\n')) := by
  induction l with
  | nil => exact List.chain'_nil
  | cons x xs ih =>
    refine List.chain'_cons'.mpr ⟨?_, ih (fun b hb => h b (List.mem_cons_of_mem x hb))⟩
    intro y hy
    rintro ⟨_, hy2⟩
    exact h y (List.mem_cons_of_mem x (mem_of_head?_eq hy)) hy2

theorem sbOk_stripBeforeNl : ∀ l : List Char, SbOk (stripBeforeNlL l) := by
  intro l
  induction l using stripBeforeNlL.induct with
  | case1 => rw [stripBeforeNlL_nil]; exact List.chain'_nil
  | case2 c cs hcond hhead ih =>
    rw [stripBeforeNlL_cons, if_pos hcond, if_pos hhead]
    refine List.chain'_cons'.mpr ⟨?_, ih⟩
    intro y hy
    rintro ⟨h1, _⟩
    rw [nl_not_hsp] at h1
    exact Bool.noConfusion h1
  | case3 c cs hcond hhead ih =>
    rw [stripBeforeNlL_cons, if_pos hcond, if_neg hhead]
    have hall : ∀ b ∈ c :: cs.takeWhile isHSpace, b ≠ '\n' := by
      intro b hb hbn
      subst hbn
      rcases List.mem_cons.mp hb with h' | h'
      · rw [← h'] at hcond
        rw [nl_not_hsp] at hcond
        exact Bool.noConfusion hcond
      · have := List.mem_takeWhile_imp h'
        rw [nl_not_hsp] at this
        exact Bool.noConfusion this
    refine List.chain'_append.mpr ⟨chain'_sb_all hall, ih, ?_⟩
    intro x hx y hy
    rintro ⟨_, hy2⟩
    subst hy2
    have hnh : HeadNotH (cs.dropWhile isHSpace) :=
      fun d hd => head_dropWhile_false isHSpace cs d hd
    rw [headNotH_head_stripBeforeNl hnh] at hy
    exact hhead hy
  | case4 c cs hcond ih =>
    have hc : isHSpace c = false := by
      cases hb : isHSpace c
      · rfl
      · exact absurd hb hcond
    rw [stripBeforeNl_cons_not_hsp hc]
    refine List.chain'_cons'.mpr ⟨?_, ih⟩
    intro y hy
    rintro ⟨h1, _⟩
    rw [hc] at h1
    exact Bool.noConfusion h1

/-! ## Newline-trigger transfer through the later stages -/

theorem trig_collapseSpaces :
    ∀ {v : List Char}, '\n' ∈ (collapseSpacesL v).takeWhile isPySpace →
      '\n' ∈ v.takeWhile isPySpace := by
  intro v
  induction v using collapseSpacesL.induct with
  | case1 => rw [collapseSpacesL_nil]; intro h; cases h
  | case2 c cs hcond ih =>
    rw [collapseSpacesL_cons, if_pos hcond]
    intro h
    rw [List.takeWhile_cons, if_pos (by decide)] at h
    rcases List.mem_cons.mp h with h' | h'
    · exact absurd h' (by decide)
    · rw [List.takeWhile_cons, if_pos (hsp_py hcond)]
      exact List.mem_cons_of_mem c (mem_takeWhile_py_dropH (ih h'))
  | case3 c cs hcond ih =>
    rw [collapseSpacesL_cons, if_neg hcond]
    intro h
    by_cases hpc : isPySpace c = true
    · rw [List.takeWhile_cons, if_pos hpc] at h ⊢
      rcases List.mem_cons.mp h with h' | h'
      · exact h' ▸ List.mem_cons_self _ _
      · exact List.mem_cons_of_mem c (ih h')
    · rw [List.takeWhile_cons, if_neg hpc] at h
      cases h

theorem trig_stripAfterNl :
    ∀ {v : List Char}, '\n' ∈ (stripAfterNlL v).takeWhile isPySpace →
      '\n' ∈ v.takeWhile isPySpace := by
  intro v
  induction v using stripAfterNlL.induct with
  | case1 => rw [stripAfterNlL_nil]; intro h; cases h
  | case2 cs ih =>
    intro _
    rw [List.takeWhile_cons, if_pos nl_py]
    exact List.mem_cons_self _ _
  | case3 c cs hcond ih =>
    rw [stripAfterNlL_cons, if_neg hcond]
    intro h
    by_cases hpc : isPySpace c = true
    · rw [List.takeWhile_cons, if_pos hpc] at h ⊢
      rcases List.mem_cons.mp h with h' | h'
      · exact h' ▸ List.mem_cons_self _ _
      · exact List.mem_cons_of_mem c (ih h')
    · rw [List.takeWhile_cons, if_neg hpc] at h
      cases h

theorem trig_stripBeforeNl :
    ∀ {v : List Char}, '\n' ∈ (stripBeforeNlL v).takeWhile isPySpace →
      '\n' ∈ v.takeWhile isPySpace := by
  intro v
  induction v using stripBeforeNlL.induct with
  | case1 => rw [stripBeforeNlL_nil]; intro h; cases h
  | case2 c cs hcond hhead ih =>
    intro _
    rw [List.takeWhile_cons, if_pos (hsp_py hcond)]
    apply List.mem_cons_of_mem
    rw [takeWhile_py_split_hsp cs]
    apply List.mem_append_right
    rcases hdw : cs.dropWhile isHSpace with _ | ⟨d, ds⟩
    · rw [hdw] at hhead
      cases hhead
    · rw [hdw] at hhead
      cases hhead
      rw [List.takeWhile_cons, if_pos nl_py]
      exact List.mem_cons_self _ _
  | case3 c cs hcond hhead ih =>
    rw [stripBeforeNlL_cons, if_pos hcond, if_neg hhead]
    intro h
    have hrun : ∀ d ∈ c :: cs.takeWhile isHSpace, isPySpace d = true := by
      intro d hd
      rcases List.mem_cons.mp hd with h' | h'
      · exact h' ▸ hsp_py hcond
      · exact hsp_py (List.mem_takeWhile_imp h')
    rw [takeWhile_append_all hrun] at h
    rcases List.mem_append.mp h with h' | h'
    · have : isHSpace '\n' = true := by
        rcases List.mem_cons.mp h' with h'' | h''
        · exact h'' ▸ hcond
        · exact List.mem_takeWhile_imp h''
      rw [nl_not_hsp] at this
      exact absurd this (by simp)
    · rw [List.takeWhile_cons, if_pos (hsp_py hcond), takeWhile_py_split_hsp cs]
      exact List.mem_cons_of_mem c (List.mem_append_right _ (ih h'))
  | case4 c cs hcond ih =>
    have hc : isHSpace c = false := by
      cases hb : isHSpace c
      · rfl
      · exact absurd hb hcond
    rw [stripBeforeNl_cons_not_hsp hc]
    intro h
    by_cases hpc : isPySpace c = true
    · rw [List.takeWhile_cons, if_pos hpc] at h ⊢
      rcases List.mem_cons.mp h with h' | h'
      · exact h' ▸ List.mem_cons_self _ _
      · exact List.mem_cons_of_mem c (ih h')
    · rw [List.takeWhile_cons, if_neg hpc] at h
      cases h

/-! ## Preservation of `NlOk` through the later stages -/

theorem nlOk_collapseSpaces :
    ∀ {l : List Char}, NlOk l → NlOk (collapseSpacesL l) := by
  intro l
  induction l using collapseSpacesL.induct with
  | case1 => intro _; rw [collapseSpacesL_nil]; trivial
  | case2 c cs hcond ih =>
    intro h
    rw [collapseSpacesL_cons, if_pos hcond]
    refine ⟨fun h1 => absurd h1 (by decide), ih (nlOk_dropWhile isHSpace h.2)⟩
  | case3 c cs hcond ih =>
    intro h
    rw [collapseSpacesL_cons, if_neg hcond]
    refine ⟨fun hc htrig => ?_, ih h.2⟩
    obtain ⟨hhead, htail⟩ := h.1 hc (trig_collapseSpaces htrig)
    rcases cs with _ | ⟨d, cs''⟩
    · cases hhead
    · cases hhead
      rw [collapseSpacesL_cons, if_neg (by rw [nl_not_hsp]; simp)]
      exact ⟨rfl, headNotPy_collapseSpaces htail⟩

theorem nlOk_stripAfterNl :
    ∀ {l : List Char}, NlOk l → NlOk (stripAfterNlL l) := by
  intro l
  induction l using stripAfterNlL.induct with
  | case1 => intro _; rw [stripAfterNlL_nil]; trivial
  | case2 cs ih =>
    intro h
    rw [stripAfterNlL_cons, if_pos rfl]
    refine ⟨fun _ htrig => ?_, ih (nlOk_dropWhile isHSpace h.2)⟩
    have htrigin : '\n' ∈ cs.takeWhile isPySpace :=
      mem_takeWhile_py_dropH (trig_stripAfterNl htrig)
    obtain ⟨hhead, htail⟩ := h.1 rfl htrigin
    rcases cs with _ | ⟨d, cs''⟩
    · cases hhead
    · cases hhead
      have htail' : HeadNotPy cs'' := htail
      have hdw : ('\n' :: cs'').dropWhile isHSpace = '\n' :: cs'' := by
        rw [List.dropWhile_cons, if_neg (by rw [nl_not_hsp]; simp)]
      rw [hdw, stripAfterNlL_cons, if_pos rfl,
        dropWhile_of_head_false (fun d hd => not_py_not_hsp (htail' d hd))]
      exact ⟨rfl, headNotPy_stripAfterNl htail'⟩
  | case3 c cs hcond ih =>
    intro h
    rw [stripAfterNlL_cons, if_neg hcond]
    exact ⟨fun hc => absurd hc hcond, ih h.2⟩

theorem nlOk_stripBeforeNl :
    ∀ {l : List Char}, NlOk l → NlOk (stripBeforeNlL l) := by
  intro l
  induction l using stripBeforeNlL.induct with
  | case1 => intro _; rw [stripBeforeNlL_nil]; trivial
  | case2 c cs hcond hhead ih =>
    intro h
    rw [stripBeforeNlL_cons, if_pos hcond, if_pos hhead]
    have hdwnl : NlOk (cs.dropWhile isHSpace) := nlOk_dropWhile isHSpace h.2
    rcases hdw : cs.dropWhile isHSpace with _ | ⟨d, rs'⟩
    · rw [hdw] at hhead
      cases hhead
    · rw [hdw] at hhead
      cases hhead
      rw [hdw] at hdwnl ih
      simp only [List.tail_cons] at ih ⊢
      refine ⟨fun _ htrig => ?_, ih hdwnl.2⟩
      obtain ⟨hhead2, htail2⟩ := hdwnl.1 rfl (trig_stripBeforeNl htrig)
      rcases rs' with _ | ⟨e, rs''⟩
      · cases hhead2
      · cases hhead2
        have htail2' : HeadNotPy rs'' := htail2
        rw [stripBeforeNl_cons_not_hsp nl_not_hsp]
        exact ⟨rfl, headNotPy_stripBeforeNl htail2'⟩
  | case3 c cs hcond hhead ih =>
    intro h
    rw [stripBeforeNlL_cons, if_pos hcond, if_neg hhead]
    refine nlOk_append_no_nl ?_ (ih (nlOk_dropWhile isHSpace h.2))
    intro d hd hdn
    subst hdn
    rcases List.mem_cons.mp hd with h' | h'
    · rw [← h'] at hcond
      rw [nl_not_hsp] at hcond
      exact Bool.noConfusion hcond
    · have := List.mem_takeWhile_imp h'
      rw [nl_not_hsp] at this
      exact Bool.noConfusion this
  | case4 c cs hcond ih =>
    intro h
    have hc : isHSpace c = false := by
      cases hb : isHSpace c
      · rfl
      · exact absurd hb hcond
    rw [stripBeforeNl_cons_not_hsp hc]
    refine ⟨fun hcnl htrig => ?_, ih h.2⟩
    obtain ⟨hhead2, htail2⟩ := h.1 hcnl (trig_stripBeforeNl htrig)
    rcases cs with _ | ⟨d, cs''⟩
    · cases hhead2
    · cases hhead2
      rw [stripBeforeNl_cons_not_hsp nl_not_hsp]
      exact ⟨rfl, headNotPy_stripBeforeNl htail2⟩

/-! ## Preservation of `CsOk` and `SaOk` through the later stages -/

theorem csOk_stripAfterNl :
    ∀ {l : List Char}, CsOk l → CsOk (stripAfterNlL l) := by
  intro l
  induction l using stripAfterNlL.induct with
  | case1 =>
    intro _
    rw [stripAfterNlL_nil]
    exact ⟨fun c hc => absurd hc (List.not_mem_nil c), List.chain'_nil⟩
  | case2 cs ih =>
    intro h
    rw [stripAfterNlL_cons, if_pos rfl]
    have hdw : CsOk (stripAfterNlL (cs.dropWhile isHSpace)) :=
      ih (csOk_dropWhile isHSpace (csOk_tail h))
    constructor
    · intro d hd
      rcases List.mem_cons.mp hd with h' | h'
      · subst h'; decide
      · exact hdw.1 d h'
    · refine List.chain'_cons'.mpr ⟨?_, hdw.2⟩
      intro y hy
      rintro ⟨h1, _⟩
      rw [nl_not_hsp] at h1
      exact Bool.noConfusion h1
  | case3 c cs hcond ih =>
    intro h
    rw [stripAfterNlL_cons, if_neg hcond]
    have hcs : CsOk (stripAfterNlL cs) := ih (csOk_tail h)
    constructor
    · intro d hd
      rcases List.mem_cons.mp hd with h' | h'
      · exact h' ▸ h.1 c (List.mem_cons_self c cs)
      · exact hcs.1 d h'
    · refine List.chain'_cons'.mpr ⟨?_, hcs.2⟩
      intro y hy
      rw [head_stripAfterNl] at hy
      exact (List.chain'_cons'.mp h.2).1 y hy

theorem csOk_stripBeforeNl :
    ∀ {l : List Char}, CsOk l → CsOk (stripBeforeNlL l) := by
  intro l
  induction l using stripBeforeNlL.induct with
  | case1 =>
    intro _
    rw [stripBeforeNlL_nil]
    exact ⟨fun c hc => absurd hc (List.not_mem_nil c), List.chain'_nil⟩
  | case2 c cs hcond hhead ih =>
    intro h
    rw [stripBeforeNlL_cons, if_pos hcond, if_pos hhead]
    have hnext : ∀ y, cs.head? = some y → isHSpace y = false := by
      intro y hy
      have := (List.chain'_cons'.mp h.2).1 y (by rw [hy]; rfl)
      cases hb : isHSpace y
      · rfl
      · exact absurd ⟨hcond, hb⟩ this
    have hdw : cs.dropWhile isHSpace = cs := dropWhile_of_head_false hnext
    rw [hdw] at hhead ih ⊢
    rcases cs with _ | ⟨d, ds⟩
    · cases hhead
    · cases hhead
      simp only [List.tail_cons] at ih ⊢
      have hds : CsOk (stripBeforeNlL ds) := ih (csOk_tail (csOk_tail h))
      constructor
      · intro e he
        rcases List.mem_cons.mp he with h' | h'
        · subst h'; decide
        · exact hds.1 e h'
      · refine List.chain'_cons'.mpr ⟨?_, hds.2⟩
        intro y hy
        rintro ⟨h1, _⟩
        rw [nl_not_hsp] at h1
        exact Bool.noConfusion h1
  | case3 c cs hcond hhead ih =>
    intro h
    rw [stripBeforeNlL_cons, if_pos hcond, if_neg hhead]
    have hnext : ∀ y, cs.head? = some y → isHSpace y = false := by
      intro y hy
      have := (List.chain'_cons'.mp h.2).1 y (by rw [hy]; rfl)
      cases hb : isHSpace y
      · rfl
      · exact absurd ⟨hcond, hb⟩ this
    have htw : cs.takeWhile isHSpace = [] := takeWhile_nil_of_head_false hnext
    have hdw : cs.dropWhile isHSpace = cs := dropWhile_of_head_false hnext
    rw [hdw] at ih
    rw [htw, hdw, List.singleton_append]
    have hcs : CsOk (stripBeforeNlL cs) := ih (csOk_tail h)
    constructor
    · intro d hd
      rcases List.mem_cons.mp hd with h' | h'
      · exact h' ▸ h.1 c (List.mem_cons_self c cs)
      · exact hcs.1 d h'
    · refine List.chain'_cons'.mpr ⟨?_, hcs.2⟩
      intro y hy
      rw [headNotH_head_stripBeforeNl hnext] at hy
      exact (List.chain'_cons'.mp h.2).1 y hy
  | case4 c cs hcond ih =>
    intro h
    have hc : isHSpace c = false := by
      cases hb : isHSpace c
      · rfl
      · exact absurd hb hcond
    rw [stripBeforeNl_cons_not_hsp hc]
    have hcs : CsOk (stripBeforeNlL cs) := ih (csOk_tail h)
    constructor
    · intro d hd
      rcases List.mem_cons.mp hd with h' | h'
      · exact h' ▸ h.1 c (List.mem_cons_self c cs)
      · exact hcs.1 d h'
    · refine List.chain'_cons'.mpr ⟨?_, hcs.2⟩
      intro y hy
      rintro ⟨h1, _⟩
      rw [hc] at h1
      exact Bool.noConfusion h1

theorem chain'_sa_all {l : List Char} (h : ∀ a ∈ l, isHSpace a = true) :
    l.Chain' (fun a b => ¬(a = '\n' ∧ isHSpace b = true)) := by
  induction l with
  | nil => exact List.chain'_nil
  | cons x xs ih =>
    refine List.chain'_cons'.mpr ⟨?_, ih (fun a ha => h a (List.mem_cons_of_mem x ha))⟩
    intro y hy
    rintro ⟨h1, _⟩
    have := h x (List.mem_cons_self x xs)
    rw [h1, nl_not_hsp] at this
    exact Bool.noConfusion this

theorem saOk_stripBeforeNl :
    ∀ {l : List Char}, SaOk l → SaOk (stripBeforeNlL l) := by
  intro l
  induction l using stripBeforeNlL.induct with
  | case1 => intro _; rw [stripBeforeNlL_nil]; exact List.chain'_nil
  | case2 c cs hcond hhead ih =>
    intro h
    rw [stripBeforeNlL_cons, if_pos hcond, if_pos hhead]
    have hdwsa : SaOk (cs.dropWhile isHSpace) :=
      saOk_dropWhile isHSpace (List.chain'_cons'.mp h).2
    rcases hdw : cs.dropWhile isHSpace with _ | ⟨d, rs'⟩
    · rw [hdw] at hhead
      cases hhead
    · rw [hdw] at hhead hdwsa ih
      cases hhead
      simp only [List.tail_cons] at ih ⊢
      refine List.chain'_cons'.mpr ⟨?_, ih (List.chain'_cons'.mp hdwsa).2⟩
      intro y hy
      rintro ⟨_, hy2⟩
      have hrs' : ∀ z, rs'.head? = some z → isHSpace z = false := by
        intro z hz
        have := (List.chain'_cons'.mp hdwsa).1 z (by rw [hz]; rfl)
        cases hb : isHSpace z
        · rfl
        · exact absurd ⟨rfl, hb⟩ this
      rw [headNotH_head_stripBeforeNl hrs'] at hy
      rw [hrs' y hy] at hy2
      exact Bool.noConfusion hy2
  | case3 c cs hcond hhead ih =>
    intro h
    rw [stripBeforeNlL_cons, if_pos hcond, if_neg hhead]
    have hall : ∀ a ∈ c :: cs.takeWhile isHSpace, isHSpace a = true := by
      intro a ha
      rcases List.mem_cons.mp ha with h' | h'
      · exact h' ▸ hcond
      · exact List.mem_takeWhile_imp h'
    refine List.chain'_append.mpr
      ⟨chain'_sa_all hall, ih (saOk_dropWhile isHSpace (List.chain'_cons'.mp h).2), ?_⟩
    intro x hx y hy
    rintro ⟨h1, _⟩
    have := hall x (List.mem_of_mem_getLast? hx)
    rw [h1, nl_not_hsp] at this
    exact Bool.noConfusion this
  | case4 c cs hcond ih =>
    intro h
    have hc : isHSpace c = false := by
      cases hb : isHSpace c
      · rfl
      · exact absurd hb hcond
    rw [stripBeforeNl_cons_not_hsp hc]
    refine List.chain'_cons'.mpr ⟨?_, ih (List.chain'_cons'.mp h).2⟩
    intro y hy
    rintro ⟨h1, hy2⟩
    rcases cs with _ | ⟨d, ds⟩
    · rw [stripBeforeNlL_nil] at hy
      cases hy
    · have hd : isHSpace d = false := by
        have := (List.chain'_cons'.mp h).1 d rfl
        cases hb : isHSpace d
        · rfl
        · exact absurd ⟨h1, hb⟩ this
      rw [stripBeforeNl_cons_not_hsp hd] at hy
      cases hy
      rw [hd] at hy2
      exact Bool.noConfusion hy2

/-! ## Assembly: a second normalization pass is the identity -/

theorem normL_idem (l : List Char) : normL (normL l) = normL l := by
  have h1 : NlOk (collapseBlankL (pstripL l)) := nlOk_collapseBlank _
  have h2 : NlOk (collapseSpacesL (collapseBlankL (pstripL l))) := nlOk_collapseSpaces h1
  have hcs2 : CsOk (collapseSpacesL (collapseBlankL (pstripL l))) := csOk_collapseSpaces _
  have h3 : NlOk (stripAfterNlL (collapseSpacesL (collapseBlankL (pstripL l)))) :=
    nlOk_stripAfterNl h2
  have hcs3 : CsOk (stripAfterNlL (collapseSpacesL (collapseBlankL (pstripL l)))) :=
    csOk_stripAfterNl hcs2
  have hsa3 : SaOk (stripAfterNlL (collapseSpacesL (collapseBlankL (pstripL l)))) :=
    saOk_stripAfterNl _
  have h4 : NlOk (stripBeforeNlL (stripAfterNlL (collapseSpacesL (collapseBlankL (pstripL l))))) :=
    nlOk_stripBeforeNl h3
  have hcs4 : CsOk (stripBeforeNlL (stripAfterNlL (collapseSpacesL (collapseBlankL (pstripL l))))) :=
    csOk_stripBeforeNl hcs3
  have hsa4 : SaOk (stripBeforeNlL (stripAfterNlL (collapseSpacesL (collapseBlankL (pstripL l))))) :=
    saOk_stripBeforeNl hsa3
  have hsb4 : SbOk (stripBeforeNlL (stripAfterNlL (collapseSpacesL (collapseBlankL (pstripL l))))) :=
    sbOk_stripBeforeNl _
  have hnl : NlOk (normL l) := nlOk_pstrip h4
  have hcs : CsOk (normL l) := csOk_pstrip hcs4
  have hsa : SaOk (normL l) := saOk_pstrip hsa4
  have hsb : SbOk (normL l) := sbOk_pstrip hsb4
  have hedge : EdgeOk (normL l) := edgeOk_pstrip _
  show pstripL (stripBeforeNlL (stripAfterNlL (collapseSpacesL (collapseBlankL
      (pstripL (normL l)))))) = normL l
  rw [pstrip_id hedge, collapseBlank_id _ hnl, collapseSpaces_id _ hcs,
    stripAfterNl_id _ hsa, stripBeforeNl_id _ hsb, pstrip_id hedge]

/-- C5: the whitespace-normalization pass of
`RegexMessageFilter._clean_extra_whitespace` is idempotent: applying it
twice gives the same string as applying it once, for every string. -/
theorem c5_normalize_idempotent :
    ∀ s : String, cleanExtraWhitespace (cleanExtraWhitespace s) = cleanExtraWhitespace s := by
  intro s
  by_cases hs : s = ""
  · subst hs
    rfl
  · have h1 : cleanExtraWhitespace s = ⟨normL s.data⟩ := by
      unfold cleanExtraWhitespace
      rw [if_neg hs]
    rw [h1]
    by_cases h2 : (⟨normL s.data⟩ : String) = ""
    · unfold cleanExtraWhitespace
      rw [if_pos h2]
    · unfold cleanExtraWhitespace
      rw [if_neg h2]
      show (⟨normL (String.data ⟨normL s.data⟩)⟩ : String) = ⟨normL s.data⟩
      exact congrArg String.mk (normL_idem s.data)

end RegexFilter
